import Mathlib

/-!
# Verification of the site-cloner crawl/rewrite core

Shallow embedding of the URL canonicalizer (`src/utils/url.js`), the crawl
engine (`src/crawler.js`), the asset download maps (`src/extractors/images.js`,
`src/extractors/fonts.js`), the CSS/HTML rewriter (`src/rewriter.js`), the
HTML slug assignment (`src/extractors/html.js`) and the job failure decision
(`src/cloner.js`), together with proofs and refutations of the frozen claims.

Node's WHATWG `URL` class is an external collaborator of the repository; it is
modelled below (`parseUrl`, `resolveRel`) for scheme://host/path?query#frag
URLs without userinfo or port, with dot-segment normalization and lowercased
scheme and host.  All repository functions are translated line by line from
the JavaScript source on top of that model.
-/

/-! ## Character/string helpers shared by the model -/

/-- `leadsList p s` : the char list `p` starts the char list `s`. -/
def leadsList : List Char → List Char → Bool
  | [], _ => true
  | _ :: _, [] => false
  | p :: ps, c :: cs => p = c && leadsList ps cs

/-- Model of JavaScript `String.prototype.includes` (substring test). -/
def inclList : List Char → List Char → Bool
  | _, [] => true
  | [], _ :: _ => false
  | s :: ss, pat => leadsList pat (s :: ss) || inclList ss pat

/-- `jsIncludes s pat` : JavaScript `s.includes(pat)`. -/
def jsIncludes (s pat : String) : Bool :=
  inclList s.data pat.data

/-- `strStarts s pre` : the string `s` starts with `pre` (char-list based so
that it evaluates inside the kernel). -/
def strStarts (s pre : String) : Bool :=
  leadsList pre.data s.data

/-- `strEnds s suf` : the string `s` ends with `suf`. -/
def strEnds (s suf : String) : Bool :=
  leadsList suf.data.reverse s.data.reverse

/-- ASCII whitespace, the characters JavaScript `trim` strips from URLs. -/
def isWsp (c : Char) : Bool :=
  c = ' ' || c = '\t' || c = '\n' || c = '\r' || c = '\x0b' || c = '\x0c'

/-- Model of JavaScript `String.prototype.trim`. -/
def jsTrim (s : String) : String :=
  ⟨((s.data.dropWhile isWsp).reverse.dropWhile isWsp).reverse⟩

/-- Split a char list at a separator character (like `String.splitOn`). -/
def splitCh (sep : Char) : List Char → List (List Char)
  | [] => [[]]
  | c :: cs =>
    match splitCh sep cs with
    | [] => if c = sep then [[], []] else [[c]]
    | g :: gs => if c = sep then [] :: g :: gs else (c :: g) :: gs

/-- Join strings with a separator (like `String.intercalate`). -/
def joinWith (sep : String) : List String → String
  | [] => ""
  | [x] => x
  | x :: xs => x ++ sep ++ joinWith sep xs

/-- ASCII lowercase of one character, written as an explicit table so that
facts such as `lowChar c = ':' → c = ':'` are provable by case split. -/
def lowChar (c : Char) : Char :=
  match c with
  | 'A' => 'a' | 'B' => 'b' | 'C' => 'c' | 'D' => 'd' | 'E' => 'e' | 'F' => 'f'
  | 'G' => 'g' | 'H' => 'h' | 'I' => 'i' | 'J' => 'j' | 'K' => 'k' | 'L' => 'l'
  | 'M' => 'm' | 'N' => 'n' | 'O' => 'o' | 'P' => 'p' | 'Q' => 'q' | 'R' => 'r'
  | 'S' => 's' | 'T' => 't' | 'U' => 'u' | 'V' => 'v' | 'W' => 'w' | 'X' => 'x'
  | 'Y' => 'y' | 'Z' => 'z'
  | c => c

/-- JavaScript `s.toLowerCase()` restricted to ASCII (sufficient for URLs). -/
def jsLower (s : String) : String :=
  ⟨s.data.map lowChar⟩

/-! ## Model of Node's WHATWG URL -/

/-- Parsed URL components.  `scheme` and `host` are lowercased; `path` always
starts with `'/'`; `query` and `frag` are stored without their `?`/`#`. -/
structure UrlParts where
  scheme : String
  host : String
  path : String
  query : String
  frag : String
  deriving Repr, DecidableEq

/-- Scheme characters after the leading letter (RFC 3986). -/
def isSchemeChar (c : Char) : Bool :=
  c.isAlphanum || c = '+' || c = '-' || c = '.'

/-- Characters that terminate the host component. -/
def isHostEnd (c : Char) : Bool :=
  c = '/' || c = '?' || c = '#' || c = ':'

/-- One step of RFC 3986 `remove_dot_segments` over already-split segments. -/
def dotStep (acc : List String) (seg : String) : List String :=
  if seg = "." then acc
  else if seg = ".." then acc.dropLast
  else acc ++ [seg]

/-- RFC 3986 / WHATWG dot-segment removal for a path starting with `'/'`. -/
def removeDotSegments (p : String) : String :=
  match (splitCh '/' p.data).map (fun g => (⟨g⟩ : String)) with
  | [] => p
  | _ :: segs =>
    let out := segs.foldl dotStep []
    let trail : List String :=
      match segs.getLast? with
      | some s => if s = "." || s = ".." then [""] else []
      | none => []
    "/" ++ joinWith "/" (out ++ trail)

/-- Split a path-query-fragment suffix (`"p?q#f"`) into its three parts. -/
def splitRef (s : String) : String × String × String :=
  let cs := s.data
  let pathPart := cs.takeWhile (fun c => c ≠ '?' && c ≠ '#')
  let rest := cs.drop pathPart.length
  match rest with
  | '?' :: r =>
    let q := r.takeWhile (fun c => c ≠ '#')
    let rest2 := r.drop q.length
    match rest2 with
    | '#' :: f => (⟨pathPart⟩, ⟨q⟩, ⟨f⟩)
    | _ => (⟨pathPart⟩, ⟨q⟩, "")
  | '#' :: f => (⟨pathPart⟩, "", ⟨f⟩)
  | _ => (⟨pathPart⟩, "", "")

/-- Model of `new URL(s)` for absolute `scheme://host[/path][?q][#f]` URLs
(no userinfo, no port).  Returns `none` on anything else, as the constructor
throws there in the modelled domain. -/
def parseUrl (s : String) : Option UrlParts :=
  match s.data with
  | [] => none
  | c :: cs =>
    if !c.isAlpha then none
    else
      let schemeRest := cs.takeWhile isSchemeChar
      match cs.drop schemeRest.length with
      | ':' :: '/' :: '/' :: rest =>
        let hostChars := rest.takeWhile (fun c => !isHostEnd c)
        if hostChars = [] then none
        else
          match rest.drop hostChars.length with
          | ':' :: _ => none
          | tailChars =>
            let pqf := splitRef ⟨tailChars⟩
            some {
              scheme := jsLower ⟨c :: schemeRest⟩
              host := jsLower ⟨hostChars⟩
              path := if pqf.1 = "" then "/" else removeDotSegments pqf.1
              query := pqf.2.1
              frag := pqf.2.2 }
      | _ => none

/-- Serialization back to a string (`url.href` in Node). -/
def UrlParts.href (u : UrlParts) : String :=
  u.scheme ++ "://" ++ u.host ++ u.path
    ++ (if u.query = "" then "" else "?" ++ u.query)
    ++ (if u.frag = "" then "" else "#" ++ u.frag)

/-- `u.protocol` in Node (`"https:"` for scheme `"https"`). -/
def UrlParts.protocol (u : UrlParts) : String :=
  u.scheme ++ ":"

/-- Directory of a path: everything up to and including the last `'/'`. -/
def dirOfPath (p : String) : String :=
  ⟨(p.data.reverse.dropWhile (fun c => c ≠ '/')).reverse⟩

/-- Model of relative resolution `new URL(href, base)` for a parsed base. -/
def resolveRel (href : String) (base : UrlParts) : Option UrlParts :=
  match parseUrl href with
  | some u => some u
  | none =>
    if strStarts href "//" then parseUrl (base.scheme ++ ":" ++ href)
    else if strStarts href "/" then
      let (p, q, f) := splitRef href
      some { base with path := removeDotSegments p, query := q, frag := f }
    else if strStarts href "#" then
      some { base with frag := href.drop 1 }
    else if strStarts href "?" then
      let (_, q, f) := splitRef href
      some { base with query := q, frag := f }
    else if href = "" then
      some { base with frag := "" }
    else
      let (p, q, f) := splitRef href
      let merged := dirOfPath base.path ++ p
      some { base with path := removeDotSegments merged, query := q, frag := f }

/-- Model of `new URL(href, baseUrl)` with a string base. -/
def jsNewUrl (href baseUrl : String) : Option UrlParts :=
  match parseUrl href with
  | some u => some u
  | none =>
    match parseUrl baseUrl with
    | none => none
    | some b => resolveRel href b

/-! ## `src/utils/url.js` -/

/-- `href.split('/')[0]`. -/
def splitHead (s : String) : String :=
  ⟨s.data.takeWhile (fun c => c ≠ '/')⟩

/-- Model of `/^[a-zA-Z0-9][-a-zA-Z0-9]*\.[a-zA-Z]{2,}/.test(seg)`:
a leading alphanumeric, a run of `[-a-zA-Z0-9]`, a dot, then at least two
letters.  The character class excludes `'.'`, so the dot can only sit at the
end of the maximal run, which this implementation checks directly. -/
def domainLikeHead (seg : String) : Bool :=
  match seg.data with
  | [] => false
  | c :: rest =>
    c.isAlphanum &&
      (let run := rest.takeWhile (fun d => d.isAlphanum || d = '-')
       match rest.drop run.length with
       | '.' :: d1 :: d2 :: _ => d1.isAlpha && d2.isAlpha
       | _ => false)

/-- `href.replace(/^\/+/, '')`. -/
def stripLeadingSlashes (s : String) : String :=
  ⟨s.data.dropWhile (fun c => c = '/')⟩

/-- `base.pathname.replace(/\/[^/]*$/, '/') || '/'` from `resolveUrl`:
trim the base path's final segment, keeping the trailing slash. -/
def jsDirPath (p : String) : String :=
  let r := if p.data.contains '/' then dirOfPath p else p
  if r = "" then "/" else r

/-- Final step of `resolveUrl`: `new URL(href, baseUrl)` plus the
protocol/hostname non-emptiness check. -/
def finishResolve (href baseUrl : String) : Option String :=
  match jsNewUrl href baseUrl with
  | none => none
  | some u => if u.protocol ≠ "" && u.host ≠ "" then some u.href else none

/-- `resolveUrl(href, baseUrl)` from `src/utils/url.js` (lines 13–37). -/
def resolveUrl (href₀ baseUrl : String) : Option String :=
  let href := jsTrim href₀
  if href = "" then none
  else if strStarts href "//" then
    finishResolve ("https:" ++ href) baseUrl
  else if strStarts href "www." || domainLikeHead (splitHead href) then
    finishResolve ("https://" ++ stripLeadingSlashes href) baseUrl
  else if !strStarts href "/" && !strStarts href "http" && !strStarts href "#" then
    match parseUrl baseUrl with
    | none => none
    | some b => finishResolve href (UrlParts.href { b with path := jsDirPath b.path })
  else
    finishResolve href baseUrl

/-- `hostname.replace(/^www\./, '')`. -/
def stripWww (h : String) : String :=
  if strStarts h "www." then h.drop 4 else h

/-- `isValidInternalUrl(url, baseOrigin)` from `src/utils/url.js` (42–53). -/
def isValidInternalUrl (url baseOrigin : String) : Bool :=
  match parseUrl url, parseUrl baseOrigin with
  | some u, some b =>
    if stripWww u.host != stripWww b.host then false
    else if jsIncludes u.path u.host then false
    else if jsIncludes u.path b.host then false
    else true
  | _, _ => false

/-- `isFetchableUrl(url)` from `src/utils/url.js` (58–66). -/
def isFetchableUrl (url : String) : Bool :=
  match parseUrl url with
  | some u => !(jsIncludes u.path u.host)
  | none => false

/-! ## URL helpers of `src/crawler.js` -/

/-- `normalizeOrigin(url)` from `src/crawler.js` (22–30):
`` `${u.protocol}//${host}` `` with `www.` stripped, the input itself on
parse failure. -/
def normalizeOrigin (url : String) : String :=
  match parseUrl url with
  | some u => u.protocol ++ "//" ++ stripWww u.host
  | none => url

/-- `isInternalUrl(baseUrl, targetUrl)` from `src/crawler.js` (35–41). -/
def isInternalUrl (baseUrl targetUrl : String) : Bool :=
  normalizeOrigin baseUrl == normalizeOrigin targetUrl

/-- `normalizeUrl(url)` from `src/crawler.js` (46–58): clear hash and query,
trim one trailing slash (root excluded), the input itself on parse failure. -/
def normalizeUrl (url : String) : String :=
  match parseUrl url with
  | none => url
  | some u =>
    let path := if strEnds u.path "/" && u.path.length > 1 then u.path.dropRight 1 else u.path
    UrlParts.href { u with path := if path = "" then "/" else path, query := "", frag := "" }


/-! ## Structural facts about the URL model -/

/-- Characters of a parsed scheme are never `':'`. -/
theorem lowChar_ne_colon {c : Char} (h : c ≠ ':') : lowChar c ≠ ':' := by
  unfold lowChar
  split <;> first | decide | exact h

theorem parseUrl_scheme_no_colon {s : String} {u : UrlParts}
    (h : parseUrl s = some u) : ':' ∉ u.scheme.data := by
  unfold parseUrl at h
  split at h
  · exact absurd h (by simp)
  · next c cs heq =>
    split at h
    · exact absurd h (by simp)
    · next hca =>
      simp only [Bool.not_eq_true', Bool.not_eq_true] at hca
      dsimp only [] at h
      split at h
      · next rest heq2 =>
        split at h
        · exact absurd h (by simp)
        · split at h
          · exact absurd h (by simp)
          · next =>
            simp only [Option.some.injEq] at h
            subst h
            intro hmem
            simp only [jsLower, List.mem_map] at hmem
            obtain ⟨x, hx, hlow⟩ := hmem
            have hxne : x ≠ ':' := by
              rcases List.mem_cons.mp hx with hx | hx
              · subst hx
                intro hc; subst hc; simp at hca
              · have := List.mem_takeWhile_imp hx
                intro hc; subst hc; simp [isSchemeChar] at this
            exact lowChar_ne_colon hxne hlow
      · exact absurd h (by simp)

/-- Splitting a string of the shape `s ++ ":" ++ t` at its first colon is
unambiguous when `s` is colon-free. -/
theorem colon_split_inj : ∀ (s₁ s₂ t₁ t₂ : List Char),
    ':' ∉ s₁ → ':' ∉ s₂ → s₁ ++ ':' :: t₁ = s₂ ++ ':' :: t₂ →
    s₁ = s₂ ∧ t₁ = t₂ := by
  intro s₁
  induction s₁ with
  | nil =>
    intro s₂ t₁ t₂ _ h₂ heq
    cases s₂ with
    | nil => simpa using heq
    | cons c cs =>
      simp only [List.nil_append, List.cons_append, List.cons.injEq] at heq
      exact absurd (heq.1 ▸ List.mem_cons_self c cs) (heq.1 ▸ h₂)
  | cons c cs ih =>
    intro s₂ t₁ t₂ h₁ h₂ heq
    cases s₂ with
    | nil =>
      simp only [List.cons_append, List.nil_append, List.cons.injEq] at heq
      exact absurd (List.mem_cons_self c cs) (heq.1 ▸ h₁)
    | cons d ds =>
      simp only [List.cons_append, List.cons.injEq] at heq
      obtain ⟨hcd, htail⟩ := heq
      have h₁' : ':' ∉ cs := fun hm => h₁ (List.mem_cons_of_mem _ hm)
      have h₂' : ':' ∉ ds := fun hm => h₂ (List.mem_cons_of_mem _ hm)
      obtain ⟨hs, ht⟩ := ih ds t₁ t₂ h₁' h₂' htail
      exact ⟨by rw [hcd, hs], ht⟩

/-- `normalizeOrigin` strings of parsed URLs agree exactly when scheme and
`www.`-stripped host agree. -/
theorem normalizeOrigin_eq_iff {a b : String} {pa pb : UrlParts}
    (ha : parseUrl a = some pa) (hb : parseUrl b = some pb) :
    normalizeOrigin a = normalizeOrigin b ↔
      (pa.scheme = pb.scheme ∧ stripWww pa.host = stripWww pb.host) := by
  constructor
  · intro h
    have hdata : (normalizeOrigin a).data = (normalizeOrigin b).data := by rw [h]
    simp only [normalizeOrigin, ha, hb, UrlParts.protocol] at hdata
    have hshape : ∀ (s h' : String),
        (s ++ ":" ++ "//" ++ h').data = s.data ++ ':' :: '/' :: '/' :: h'.data := by
      intro s h'
      simp [String.data_append]
    rw [hshape, hshape] at hdata
    obtain ⟨hs, ht⟩ := colon_split_inj _ _ _ _
      (parseUrl_scheme_no_colon ha) (parseUrl_scheme_no_colon hb) hdata
    refine ⟨String.ext hs, ?_⟩
    simp only [List.cons.injEq] at ht
    exact String.ext ht.2.2
  · rintro ⟨hs, hh⟩
    simp [normalizeOrigin, ha, hb, UrlParts.protocol, hs, hh]

/-! ## Claim C1 — `resolveUrl` and hostname-in-path -/

/-- Claim C1, refutation: `resolveUrl` itself performs no hostname-in-path
check.  On the href `"https://example.com/example.com/"` it returns a URL
whose path `"/example.com/"` contains its own hostname `"example.com"`. -/
theorem resolveUrl_hostname_in_path_cex :
    resolveUrl "https://example.com/example.com/" "https://base.com/"
      = some "https://example.com/example.com/" ∧
    (parseUrl "https://example.com/example.com/").map
      (fun u => jsIncludes u.path u.host) = some true := by
  decide

/-- Claim C1 (amended): `resolveUrl` may return a URL whose path contains its
own hostname; the hostname-in-path guard lives downstream instead: any URL
whose parsed path contains its hostname is rejected by `isFetchableUrl`, and
by `isValidInternalUrl` against every base origin. -/
theorem hostname_in_path_rejected_downstream (url : String) (u : UrlParts)
    (hp : parseUrl url = some u) (hin : jsIncludes u.path u.host = true) :
    isFetchableUrl url = false ∧
      ∀ baseOrigin, isValidInternalUrl url baseOrigin = false := by
  constructor
  · simp [isFetchableUrl, hp, hin]
  · intro baseOrigin
    unfold isValidInternalUrl
    rw [hp]
    cases hb : parseUrl baseOrigin with
    | none => rfl
    | some b =>
      by_cases hh : (stripWww u.host != stripWww b.host) = true
      · simp [hh]
      · simp [hh, hin]

/-- Witness for `hostname_in_path_rejected_downstream` at the concrete URL
returned by `resolveUrl` in the counterexample. -/
theorem hostname_in_path_rejected_downstream_witness :
    isFetchableUrl "https://example.com/example.com/" = false ∧
      ∀ baseOrigin, isValidInternalUrl "https://example.com/example.com/" baseOrigin = false :=
  hostname_in_path_rejected_downstream "https://example.com/example.com/"
    ⟨"https", "example.com", "/example.com/", "", ""⟩ (by decide) (by decide)

/-! ## Claim C5 — the same-origin test -/

/-- Claim C5, refutation: the crawl engine's same-origin test `isInternalUrl`
compares `protocol` as well, so two URLs differing only in scheme are *not*
same-origin, contrary to the claim. -/
theorem isInternalUrl_scheme_sensitive_cex :
    isInternalUrl "http://example.com/" "https://example.com/" = false := by
  decide

/-- Claim C5 (amended): for parseable URLs, `isInternalUrl a b` holds iff the
schemes are equal *and* the `www.`-stripped hostnames are equal; paths and
queries are ignored, but the scheme is not. -/
theorem isInternalUrl_iff (a b : String) (pa pb : UrlParts)
    (ha : parseUrl a = some pa) (hb : parseUrl b = some pb) :
    isInternalUrl a b = true ↔
      (pa.scheme = pb.scheme ∧ stripWww pa.host = stripWww pb.host) := by
  rw [isInternalUrl, beq_iff_eq]
  exact normalizeOrigin_eq_iff ha hb

/-- Witness for `isInternalUrl_iff`: the `www.` variant of a host is
same-origin with the bare host under the same scheme. -/
theorem isInternalUrl_iff_witness :
    isInternalUrl "https://www.example.com/x" "https://example.com/y" = true ↔
      ("https" = "https" ∧ stripWww "www.example.com" = stripWww "example.com") :=
  isInternalUrl_iff "https://www.example.com/x" "https://example.com/y"
    ⟨"https", "www.example.com", "/x", "", ""⟩
    ⟨"https", "example.com", "/y", "", ""⟩ (by decide) (by decide)

/-! ## Crawl engine state machine (`src/crawler.js` 154–318 and 323–380)

Both crawl backends run the identical frontier/visited loop; only page
retrieval differs (`page.goto` + the materialization protocol vs `fetchUrl`).
The loop is modelled once.  `fetchUrl`/`page.goto` is abstracted by a finite
web (`List (String × Nat × String)`, URL to status and HTML); a URL absent
from the web models a thrown transport error.  Link extraction
(`extractLinks`, cheerio + regex scan) is a parameter `links html url`. -/

/-- Loop state: fetched pages in order, visited set, frontier, and the
`logger.error` page-fetch entries (`some s` models "Failed to load url: s",
`none` models "Error fetching url: ..."). -/
structure CrawlState where
  pages : List (String × String)
  visited : List String
  toVisit : List String
  errors : List (String × Option Nat)
  deriving Repr, DecidableEq

/-- Fetch result for a URL: the first web entry for it, if any. -/
def lookupWeb (web : List (String × Nat × String)) (url : String) :
    Option (Nat × String) :=
  (web.find? (fun e => e.1 == url)).map (fun e => e.2)

/-- Enqueue filter of both crawl loops (`crawler.js` 301–306, 363–368): each
extracted link is normalized and appended only if it is neither visited nor
already in the frontier, has the crawl's normalized origin, and is fetchable. -/
def pushLinks (visited : List String) (normOrigin : String)
    (tv0 : List String) (links : List String) : List String :=
  links.foldl (fun tv link =>
    let normalized := normalizeUrl link
    if !visited.contains normalized && !tv.contains normalized
        && (normalizeOrigin link == normOrigin) && isFetchableUrl normalized
    then tv ++ [normalized] else tv) tv0

/-- Sitemap seeding of `crawlSiteSimple` (`crawler.js` 332–337); `visited` is
empty there but the check is kept verbatim. -/
def seedSitemap (visited : List String) (tv0 : List String)
    (urls : List String) : List String :=
  urls.foldl (fun tv u =>
    if !visited.contains u && !tv.contains u && isFetchableUrl u
    then tv ++ [u] else tv) tv0

/-- The crawl loop (`crawler.js` 342–372, resp. 179–310), fuel-indexed:
`none` means the fuel bound was hit, `some` a completed crawl. -/
def crawlLoop (web : List (String × Nat × String))
    (links : String → String → List String) (normOrigin : String)
    (maxPages : Nat) : Nat → CrawlState → Option CrawlState
  | 0, _ => none
  | fuel + 1, st =>
    match st.toVisit with
    | [] => some st
    | url :: rest =>
      if st.pages.length < maxPages then
        if st.visited.contains url then
          crawlLoop web links normOrigin maxPages fuel { st with toVisit := rest }
        else
          match lookupWeb web url with
          | none =>
            crawlLoop web links normOrigin maxPages fuel
              { st with toVisit := rest, visited := url :: st.visited,
                        errors := st.errors ++ [(url, none)] }
          | some sh =>
            if 400 ≤ sh.1 then
              if sh.1 = 404 then
                crawlLoop web links normOrigin maxPages fuel
                  { st with toVisit := rest, visited := url :: st.visited }
              else
                crawlLoop web links normOrigin maxPages fuel
                  { st with toVisit := rest, visited := url :: st.visited,
                            errors := st.errors ++ [(url, some sh.1)] }
            else
              crawlLoop web links normOrigin maxPages fuel
                { st with
                    pages := st.pages ++ [(url, sh.2)],
                    visited := url :: st.visited,
                    toVisit := pushLinks (url :: st.visited) normOrigin rest
                      (links sh.2 url) }
      else some st

/-- Normalized links a fetch of `u` can enqueue (used for the fuel measure). -/
def linkCands (web : List (String × Nat × String))
    (links : String → String → List String) (u : String) : List String :=
  match lookupWeb web u with
  | some sh => if 400 ≤ sh.1 then [] else (links sh.2 u).map normalizeUrl
  | none => []

/-- Finite superset of every URL the crawl can ever enqueue. -/
def crawlUniverse (web : List (String × Nat × String))
    (links : String → String → List String) (startUrl : String)
    (sitemapUrls : List String) : List String :=
  normalizeUrl startUrl :: sitemapUrls
    ++ web.flatMap (fun e => (links e.2.2 e.1).map normalizeUrl)

/-- Fuel measure component: total enqueue capacity of unvisited URLs. -/
def crawlWeight (web : List (String × Nat × String))
    (links : String → String → List String) (U : List String)
    (visited : List String) : Nat :=
  (U.toFinset.filter (fun x => x ∉ visited)).sum
    (fun u => 1 + (linkCands web links u).length)

/-- `crawlSiteSimple(startUrl)` (`crawler.js` 323–380): seed with the
normalized start URL and the sitemap URLs, then run the loop.  `none` models
the thrown exception when `new URL(startUrl)` fails (the fuel is provably
sufficient otherwise). -/
def crawlSiteSimpleM (web : List (String × Nat × String))
    (links : String → String → List String) (sitemapUrls : List String)
    (startUrl : String) (maxPages : Nat) : Option CrawlState :=
  match parseUrl startUrl with
  | none => none
  | some _ =>
    let tv0 := seedSitemap [] [normalizeUrl startUrl] sitemapUrls
    let U := crawlUniverse web links startUrl sitemapUrls
    crawlLoop web links (normalizeOrigin startUrl) maxPages
      (crawlWeight web links U [] + tv0.length + 1)
      ⟨[], [], tv0, []⟩

/-- Loop invariant of the crawl state machine: the frontier stays inside the
finite universe `U`, is duplicate-free and disjoint from the visited set; the
visited set and the fetched page URLs are duplicate-free; every error entry
records a real non-404 failure; every visited URL is either a fetched page or
a failed fetch. -/
structure CrawlInv (web : List (String × Nat × String)) (U : List String)
    (st : CrawlState) : Prop where
  tv_sub : ∀ x ∈ st.toVisit, x ∈ U
  tv_nodup : st.toVisit.Nodup
  tv_fresh : ∀ x ∈ st.toVisit, x ∉ st.visited
  vis_nodup : st.visited.Nodup
  pages_nodup : (st.pages.map Prod.fst).Nodup
  pages_vis : ∀ p ∈ st.pages, p.1 ∈ st.visited
  err_ok : ∀ e ∈ st.errors,
    (e.2 = none → lookupWeb web e.1 = none) ∧
    (∀ s, e.2 = some s → 400 ≤ s ∧ s ≠ 404 ∧ ∃ h, lookupWeb web e.1 = some (s, h))
  vis_acct : ∀ u ∈ st.visited,
    (∃ p ∈ st.pages, p.1 = u) ∨ lookupWeb web u = none ∨
      ∃ sh, lookupWeb web u = some sh ∧ 400 ≤ sh.1
  pages_ok : ∀ p ∈ st.pages,
    ∃ sh, lookupWeb web p.1 = some sh ∧ sh.1 < 400 ∧ p.2 = sh.2
  err_none_complete : ∀ u ∈ st.visited,
    lookupWeb web u = none → (u, (none : Option Nat)) ∈ st.errors
  err_status_complete : ∀ u ∈ st.visited, ∀ sh, lookupWeb web u = some sh →
    400 ≤ sh.1 → sh.1 ≠ 404 → (u, some sh.1) ∈ st.errors

theorem lookupWeb_mem {web : List (String × Nat × String)} {url : String}
    {sh : Nat × String} (h : lookupWeb web url = some sh) :
    ∃ e ∈ web, e.1 = url ∧ e.2 = sh := by
  unfold lookupWeb at h
  cases hf : web.find? (fun e => e.1 == url) with
  | none => rw [hf] at h; simp at h
  | some e =>
    rw [hf] at h
    simp only [Option.map_some', Option.some.injEq] at h
    refine ⟨e, List.mem_of_find?_eq_some hf, ?_, h⟩
    have := List.find?_some hf
    simpa [beq_iff_eq] using this

theorem pushLinks_mem (vis : List String) (orig : String) :
    ∀ (links tv : List String) (x : String), x ∈ pushLinks vis orig tv links →
      x ∈ tv ∨ x ∈ links.map normalizeUrl := by
  intro links
  induction links with
  | nil => intro tv x hx; exact Or.inl hx
  | cons l ls ih =>
    intro tv x hx
    simp only [pushLinks, List.foldl_cons] at hx
    rcases ih _ x hx with hmem | hmem
    · split at hmem
      · rcases List.mem_append.mp hmem with h | h
        · exact Or.inl h
        · exact Or.inr (by simp [List.mem_cons.mpr (Or.inl (List.mem_singleton.mp h))])
      · exact Or.inl hmem
    · exact Or.inr (List.mem_cons_of_mem _ hmem)

theorem contains_false_iff {l : List String} {a : String} :
    l.contains a = false ↔ a ∉ l := by
  simp [List.contains]

theorem pushLinks_length (vis : List String) (orig : String) :
    ∀ (links tv : List String),
      (pushLinks vis orig tv links).length ≤ tv.length + links.length := by
  intro links
  induction links with
  | nil => intro tv; simp [pushLinks]
  | cons l ls ih =>
    intro tv
    simp only [pushLinks, List.foldl_cons]
    have hstep := ih ((fun tv link =>
      let normalized := normalizeUrl link
      if !vis.contains normalized && !tv.contains normalized
          && (normalizeOrigin link == orig) && isFetchableUrl normalized
      then tv ++ [normalized] else tv) tv l)
    refine le_trans hstep ?_
    dsimp only
    split <;> simp only [List.length_append, List.length_cons,
      List.length_singleton, List.length_nil] <;> omega

theorem pushLinks_nodup_fresh (vis : List String) (orig : String) :
    ∀ (links tv : List String), tv.Nodup → (∀ x ∈ tv, x ∉ vis) →
      (pushLinks vis orig tv links).Nodup ∧
        ∀ x ∈ pushLinks vis orig tv links, x ∉ vis := by
  intro links
  induction links with
  | nil => intro tv h₁ h₂; exact ⟨h₁, h₂⟩
  | cons l ls ih =>
    intro tv h₁ h₂
    simp only [pushLinks, List.foldl_cons]
    split
    · next hcond =>
      simp only [Bool.and_eq_true, Bool.not_eq_true'] at hcond
      obtain ⟨⟨⟨hv, ht⟩, _⟩, _⟩ := hcond
      refine ih _ ?_ ?_
      · exact List.nodup_append.mpr ⟨h₁, List.nodup_singleton _,
          by simpa [List.disjoint_right] using
            fun hm => (contains_false_iff.mp ht hm).elim⟩
      · intro x hx
        rcases List.mem_append.mp hx with h | h
        · exact h₂ x h
        · rw [List.mem_singleton.mp h]; exact contains_false_iff.mp hv
    · exact ih _ h₁ h₂

theorem seedSitemap_mem (vis : List String) :
    ∀ (urls tv : List String) (x : String), x ∈ seedSitemap vis tv urls →
      x ∈ tv ∨ x ∈ urls := by
  intro urls
  induction urls with
  | nil => intro tv x hx; exact Or.inl hx
  | cons u us ih =>
    intro tv x hx
    simp only [seedSitemap, List.foldl_cons] at hx
    rcases ih _ x hx with hmem | hmem
    · split at hmem
      · rcases List.mem_append.mp hmem with h | h
        · exact Or.inl h
        · exact Or.inr (by simp [List.mem_singleton.mp h])
      · exact Or.inl hmem
    · exact Or.inr (List.mem_cons_of_mem _ hmem)

theorem seedSitemap_nodup_fresh (vis : List String) :
    ∀ (urls tv : List String), tv.Nodup → (∀ x ∈ tv, x ∉ vis) →
      (seedSitemap vis tv urls).Nodup ∧
        ∀ x ∈ seedSitemap vis tv urls, x ∉ vis := by
  intro urls
  induction urls with
  | nil => intro tv h₁ h₂; exact ⟨h₁, h₂⟩
  | cons u us ih =>
    intro tv h₁ h₂
    simp only [seedSitemap, List.foldl_cons]
    split
    · next hcond =>
      simp only [Bool.and_eq_true, Bool.not_eq_true'] at hcond
      obtain ⟨⟨hv, ht⟩, _⟩ := hcond
      refine ih _ ?_ ?_
      · exact List.nodup_append.mpr ⟨h₁, List.nodup_singleton _,
          by simpa [List.disjoint_right] using
            fun hm => (contains_false_iff.mp ht hm).elim⟩
      · intro x hx
        rcases List.mem_append.mp hx with h | h
        · exact h₂ x h
        · rw [List.mem_singleton.mp h]; exact contains_false_iff.mp hv
    · exact ih _ h₁ h₂

theorem crawlWeight_cons (web : List (String × Nat × String))
    (links : String → String → List String) (U : List String)
    {vis : List String} {u : String} (hU : u ∈ U) (hv : u ∉ vis) :
    crawlWeight web links U (u :: vis) + (1 + (linkCands web links u).length)
      = crawlWeight web links U vis := by
  unfold crawlWeight
  have hfe : U.toFinset.filter (fun x => x ∉ u :: vis)
      = (U.toFinset.filter (fun x => x ∉ vis)).erase u := by
    ext x
    simp only [Finset.mem_filter, Finset.mem_erase, List.mem_cons, not_or,
      List.mem_toFinset]
    tauto
  rw [hfe]
  exact Finset.sum_erase_add _ _ (by
    simp only [Finset.mem_filter, List.mem_toFinset]
    exact ⟨hU, hv⟩)

theorem crawlLoop_sound (web : List (String × Nat × String))
    (links : String → String → List String) (orig : String) (maxPages : Nat)
    (U : List String)
    (hUweb : ∀ e ∈ web, ∀ x ∈ (links e.2.2 e.1).map normalizeUrl, x ∈ U) :
    ∀ fuel st, CrawlInv web U st →
      crawlWeight web links U st.visited + st.toVisit.length < fuel →
      ∃ r, crawlLoop web links orig maxPages fuel st = some r ∧
        CrawlInv web U r := by
  intro fuel
  induction fuel with
  | zero => intro st _ hμ; exact absurd hμ (Nat.not_lt_zero _)
  | succ fuel ih =>
    intro st hinv hμ
    cases htv : st.toVisit with
    | nil =>
      refine ⟨st, ?_, hinv⟩
      simp [crawlLoop, htv]
    | cons url rest =>
      have hμ' : crawlWeight web links U st.visited + (rest.length + 1) < fuel + 1 := by
        rw [htv] at hμ; simpa using hμ
      by_cases hcap : st.pages.length < maxPages
      · by_cases hvis : st.visited.contains url = true
        · -- already visited: drop the head
          have hinv' : CrawlInv web U { st with toVisit := rest } := by
            refine ⟨?_, ?_, ?_, hinv.vis_nodup, hinv.pages_nodup, hinv.pages_vis,
              hinv.err_ok, hinv.vis_acct, hinv.pages_ok, hinv.err_none_complete,
              hinv.err_status_complete⟩
            · intro x hx
              exact hinv.tv_sub x (by rw [htv]; exact List.mem_cons_of_mem _ hx)
            · have := hinv.tv_nodup; rw [htv] at this
              exact this.of_cons
            · intro x hx
              exact hinv.tv_fresh x (by rw [htv]; exact List.mem_cons_of_mem _ hx)
          obtain ⟨r, hr, hrinv⟩ := ih { st with toVisit := rest } hinv' (by
            simp only []
            omega)
          refine ⟨r, ?_, hrinv⟩
          simp only [crawlLoop, htv]
          rw [if_pos hcap, if_pos hvis]
          exact hr
        · have hvisf : st.visited.contains url = false := by
            simpa using hvis
          have hnv : url ∉ st.visited := contains_false_iff.mp hvisf
          have hUurl : url ∈ U := hinv.tv_sub url (by rw [htv]; exact List.mem_cons_self _ _)
          have hrest_nodup : rest.Nodup := by
            have := hinv.tv_nodup; rw [htv] at this; exact this.of_cons
          have hrest_ne : ∀ x ∈ rest, x ≠ url := by
            intro x hx
            have := hinv.tv_nodup; rw [htv] at this
            rcases List.nodup_cons.mp this with ⟨hnu, _⟩
            intro hxe; rw [hxe] at hx; exact hnu hx
          have hrest_fresh : ∀ x ∈ rest, x ∉ url :: st.visited := by
            intro x hx
            rw [List.mem_cons, not_or]
            exact ⟨hrest_ne x hx,
              hinv.tv_fresh x (by rw [htv]; exact List.mem_cons_of_mem _ hx)⟩
          have hw := crawlWeight_cons web links U hUurl hnv
          cases hlook : lookupWeb web url with
          | none =>
            have hinv' : CrawlInv web U
                { st with toVisit := rest, visited := url :: st.visited,
                          errors := st.errors ++ [(url, none)] } := by
              refine ⟨?_, hrest_nodup, hrest_fresh, ?_, hinv.pages_nodup, ?_, ?_, ?_,
                hinv.pages_ok, ?_, ?_⟩
              · intro x hx
                exact hinv.tv_sub x (by rw [htv]; exact List.mem_cons_of_mem _ hx)
              · exact List.nodup_cons.mpr ⟨hnv, hinv.vis_nodup⟩
              · intro p hp
                exact List.mem_cons_of_mem _ (hinv.pages_vis p hp)
              · intro e he
                rcases List.mem_append.mp he with he | he
                · exact hinv.err_ok e he
                · rw [List.mem_singleton.mp he]
                  exact ⟨fun _ => hlook, fun s hs => by simp at hs⟩
              · intro u hu
                rcases List.mem_cons.mp hu with hu | hu
                · subst hu; exact Or.inr (Or.inl hlook)
                · exact hinv.vis_acct u hu
              · intro u hu hlk
                rcases List.mem_cons.mp hu with hu | hu
                · subst hu
                  exact List.mem_append.mpr (Or.inr (by simp))
                · exact List.mem_append.mpr (Or.inl (hinv.err_none_complete u hu hlk))
              · intro u hu sh' hlk h4' h404'
                rcases List.mem_cons.mp hu with hu | hu
                · subst hu
                  rw [hlook] at hlk
                  exact absurd hlk (by simp)
                · exact List.mem_append.mpr
                    (Or.inl (hinv.err_status_complete u hu sh' hlk h4' h404'))
            have hcand0 : (0 : Nat) ≤ (linkCands web links url).length := Nat.zero_le _
            obtain ⟨r, hr, hrinv⟩ := ih _ hinv' (by
              simp only []
              omega)
            refine ⟨r, ?_, hrinv⟩
            simp only [crawlLoop, htv]
            rw [if_pos hcap, if_neg hvis, hlook]
            exact hr
          | some sh =>
            by_cases h4 : 400 ≤ sh.1
            · by_cases h404 : sh.1 = 404
              · -- 404: skip silently
                have hinv' : CrawlInv web U
                    { st with toVisit := rest, visited := url :: st.visited } := by
                  refine ⟨?_, hrest_nodup, hrest_fresh, ?_, hinv.pages_nodup, ?_,
                    hinv.err_ok, ?_, hinv.pages_ok, ?_, ?_⟩
                  · intro x hx
                    exact hinv.tv_sub x (by rw [htv]; exact List.mem_cons_of_mem _ hx)
                  · exact List.nodup_cons.mpr ⟨hnv, hinv.vis_nodup⟩
                  · intro p hp
                    exact List.mem_cons_of_mem _ (hinv.pages_vis p hp)
                  · intro u hu
                    rcases List.mem_cons.mp hu with hu | hu
                    · subst hu; exact Or.inr (Or.inr ⟨sh, hlook, h4⟩)
                    · exact hinv.vis_acct u hu
                  · intro u hu hlk
                    rcases List.mem_cons.mp hu with hu | hu
                    · subst hu
                      rw [hlook] at hlk
                      exact absurd hlk (by simp)
                    · exact hinv.err_none_complete u hu hlk
                  · intro u hu sh' hlk h4' h404'
                    rcases List.mem_cons.mp hu with hu | hu
                    · subst hu
                      rw [hlook] at hlk
                      have hsh : sh' = sh := by simpa using hlk.symm
                      exact absurd (hsh ▸ h404) h404'
                    · exact hinv.err_status_complete u hu sh' hlk h4' h404' 
                obtain ⟨r, hr, hrinv⟩ := ih _ hinv' (by
                  simp only []
                  omega)
                refine ⟨r, ?_, hrinv⟩
                simp only [crawlLoop, htv]
                rw [if_pos hcap, if_neg hvis, hlook]
                dsimp only
                rw [if_pos h4, if_pos h404]
                exact hr
              · -- other 4xx/5xx: log and skip
                have hinv' : CrawlInv web U
                    { st with toVisit := rest, visited := url :: st.visited,
                              errors := st.errors ++ [(url, some sh.1)] } := by
                  refine ⟨?_, hrest_nodup, hrest_fresh, ?_, hinv.pages_nodup, ?_, ?_, ?_,
                    hinv.pages_ok, ?_, ?_⟩
                  · intro x hx
                    exact hinv.tv_sub x (by rw [htv]; exact List.mem_cons_of_mem _ hx)
                  · exact List.nodup_cons.mpr ⟨hnv, hinv.vis_nodup⟩
                  · intro p hp
                    exact List.mem_cons_of_mem _ (hinv.pages_vis p hp)
                  · intro e he
                    rcases List.mem_append.mp he with he | he
                    · exact hinv.err_ok e he
                    · rw [List.mem_singleton.mp he]
                      refine ⟨fun hc => by simp at hc, fun s hs => ?_⟩
                      have hse : s = sh.1 := by simpa using hs.symm
                      subst hse
                      exact ⟨h4, h404, sh.2, by rw [hlook]⟩
                  · intro u hu
                    rcases List.mem_cons.mp hu with hu | hu
                    · subst hu; exact Or.inr (Or.inr ⟨sh, hlook, h4⟩)
                    · exact hinv.vis_acct u hu
                  · intro u hu hlk
                    rcases List.mem_cons.mp hu with hu | hu
                    · subst hu
                      rw [hlook] at hlk
                      exact absurd hlk (by simp)
                    · exact List.mem_append.mpr (Or.inl (hinv.err_none_complete u hu hlk))
                  · intro u hu sh' hlk h4' h404'
                    rcases List.mem_cons.mp hu with hu | hu
                    · subst hu
                      rw [hlook] at hlk
                      have hsh : sh' = sh := by simpa using hlk.symm
                      subst hsh
                      exact List.mem_append.mpr (Or.inr (by simp))
                    · exact List.mem_append.mpr
                        (Or.inl (hinv.err_status_complete u hu sh' hlk h4' h404'))
                obtain ⟨r, hr, hrinv⟩ := ih _ hinv' (by
                  simp only []
                  omega)
                refine ⟨r, ?_, hrinv⟩
                simp only [crawlLoop, htv]
                rw [if_pos hcap, if_neg hvis, hlook]
                dsimp only
                rw [if_pos h4, if_neg h404]
                exact hr
            · -- success: record the page and extend the frontier
              have hcand : linkCands web links url = (links sh.2 url).map normalizeUrl := by
                simp [linkCands, hlook, h4]
              have hpl := pushLinks_nodup_fresh (url :: st.visited) orig
                (links sh.2 url) rest hrest_nodup hrest_fresh
              have hlen := pushLinks_length (url :: st.visited) orig
                (links sh.2 url) rest
              have hinv' : CrawlInv web U
                  { st with
                      pages := st.pages ++ [(url, sh.2)],
                      visited := url :: st.visited,
                      toVisit := pushLinks (url :: st.visited) orig rest
                        (links sh.2 url) } := by
                refine ⟨?_, hpl.1, hpl.2, ?_, ?_, ?_, hinv.err_ok, ?_, ?_, ?_, ?_⟩
                · intro x hx
                  rcases pushLinks_mem (url :: st.visited) orig
                      (links sh.2 url) rest x hx with hx | hx
                  · exact hinv.tv_sub x (by rw [htv]; exact List.mem_cons_of_mem _ hx)
                  · obtain ⟨e, hew, he1, he2⟩ := lookupWeb_mem hlook
                    refine hUweb e hew x ?_
                    rw [he1, he2]
                    exact hx
                · exact List.nodup_cons.mpr ⟨hnv, hinv.vis_nodup⟩
                · rw [List.map_append]
                  refine List.Nodup.append hinv.pages_nodup (by simp) ?_
                  intro x hx hx'
                  simp only [List.map_cons, List.map_nil, List.mem_singleton] at hx'
                  subst hx'
                  rcases List.mem_map.mp hx with ⟨p, hp, hpe⟩
                  exact hnv (hpe ▸ hinv.pages_vis p hp)
                · intro p hp
                  rcases List.mem_append.mp hp with hp | hp
                  · exact List.mem_cons_of_mem _ (hinv.pages_vis p hp)
                  · rw [List.mem_singleton.mp hp]
                    exact List.mem_cons_self _ _
                · intro u hu
                  rcases List.mem_cons.mp hu with hu | hu
                  · subst hu
                    exact Or.inl ⟨(u, sh.2), List.mem_append.mpr (Or.inr (by simp)), rfl⟩
                  · rcases hinv.vis_acct u hu with ⟨p, hp, hpe⟩ | hrec
                    · exact Or.inl ⟨p, List.mem_append.mpr (Or.inl hp), hpe⟩
                    · exact Or.inr hrec
                · intro p hp
                  rcases List.mem_append.mp hp with hp | hp
                  · exact hinv.pages_ok p hp
                  · rw [List.mem_singleton.mp hp]
                    exact ⟨sh, hlook, Nat.lt_of_not_le h4, rfl⟩
                · intro u hu hlk
                  rcases List.mem_cons.mp hu with hu | hu
                  · subst hu
                    rw [hlook] at hlk
                    exact absurd hlk (by simp)
                  · exact hinv.err_none_complete u hu hlk
                · intro u hu sh' hlk h4' h404'
                  rcases List.mem_cons.mp hu with hu | hu
                  · subst hu
                    rw [hlook] at hlk
                    have hsh : sh' = sh := by simpa using hlk.symm
                    exact absurd (hsh ▸ h4') h4
                  · exact hinv.err_status_complete u hu sh' hlk h4' h404' 
              obtain ⟨r, hr, hrinv⟩ := ih _ hinv' (by
                simp only []
                have hle : (pushLinks (url :: st.visited) orig rest
                    (links sh.2 url)).length ≤ rest.length + (links sh.2 url).length := hlen
                have hcl : (linkCands web links url).length = (links sh.2 url).length := by
                  rw [hcand, List.length_map]
                omega)
              refine ⟨r, ?_, hrinv⟩
              simp only [crawlLoop, htv]
              rw [if_pos hcap, if_neg hvis, hlook]
              dsimp only
              rw [if_neg h4]
              exact hr
      · refine ⟨st, ?_, hinv⟩
        simp only [crawlLoop, htv]
        rw [if_neg hcap]

theorem crawlSiteSimpleM_sound (web : List (String × Nat × String))
    (links : String → String → List String) (sitemapUrls : List String)
    (startUrl : String) (maxPages : Nat) (p : UrlParts)
    (hp : parseUrl startUrl = some p) :
    ∃ r, crawlSiteSimpleM web links sitemapUrls startUrl maxPages = some r ∧
      CrawlInv web (crawlUniverse web links startUrl sitemapUrls) r := by
  have hUweb : ∀ e ∈ web, ∀ x ∈ (links e.2.2 e.1).map normalizeUrl,
      x ∈ crawlUniverse web links startUrl sitemapUrls := by
    intro e hew x hx
    unfold crawlUniverse
    refine List.mem_cons_of_mem _ (List.mem_append.mpr (Or.inr ?_))
    exact List.mem_flatMap.mpr ⟨e, hew, hx⟩
  have hseed := seedSitemap_nodup_fresh ([] : List String) sitemapUrls
    [normalizeUrl startUrl] (List.nodup_singleton _) (by simp)
  have hinv0 : CrawlInv web (crawlUniverse web links startUrl sitemapUrls)
      ⟨[], [], seedSitemap [] [normalizeUrl startUrl] sitemapUrls, []⟩ := by
    refine ⟨?_, hseed.1, hseed.2, List.nodup_nil, List.nodup_nil, ?_, ?_, ?_, ?_, ?_, ?_⟩
    · intro x hx
      rcases seedSitemap_mem ([] : List String) sitemapUrls
          [normalizeUrl startUrl] x hx with hx | hx
      · rw [List.mem_singleton.mp hx]
        exact List.mem_cons_self _ _
      · exact List.mem_cons_of_mem _ (List.mem_append.mpr (Or.inl hx))
    · intro pg hpg; simp at hpg
    · intro e he; simp at he
    · intro u hu; simp at hu
    · intro pg hpg; simp at hpg
    · intro u hu; simp at hu
    · intro u hu; simp at hu
  obtain ⟨r, hr, hrinv⟩ := crawlLoop_sound web links (normalizeOrigin startUrl)
    maxPages (crawlUniverse web links startUrl sitemapUrls) hUweb
    (crawlWeight web links (crawlUniverse web links startUrl sitemapUrls) []
      + (seedSitemap [] [normalizeUrl startUrl] sitemapUrls).length + 1)
    ⟨[], [], seedSitemap [] [normalizeUrl startUrl] sitemapUrls, []⟩
    hinv0 (by simp)
  refine ⟨r, ?_, hrinv⟩
  unfold crawlSiteSimpleM
  rw [hp]
  exact hr

/-! ## Claim C2 — at-most-once visiting and cycle-safe termination -/

/-- Claim C2 (confirmed): for every web, link-extraction function, sitemap
seed list, parseable start URL and page cap, the crawl loop terminates
(`some r`, for the explicitly computed fuel — in particular on link graphs
with cycles or self-links), fetches every URL at most once (the fetched page
URLs are duplicate-free), marks each URL visited exactly once (the visited
list is duplicate-free and contains every fetched page), and the frontier
never holds a duplicate or an already-visited URL.  `crawlSitePuppeteer`
(crawler.js 301–306) runs the identical enqueue/visit logic. -/
theorem crawl_visits_each_url_at_most_once (web : List (String × Nat × String))
    (links : String → String → List String) (sitemapUrls : List String)
    (startUrl : String) (maxPages : Nat) (p : UrlParts)
    (hp : parseUrl startUrl = some p) :
    ∃ r, crawlSiteSimpleM web links sitemapUrls startUrl maxPages = some r ∧
      (r.pages.map Prod.fst).Nodup ∧
      r.visited.Nodup ∧
      r.toVisit.Nodup ∧
      (∀ pg ∈ r.pages, pg.1 ∈ r.visited) ∧
      (∀ x ∈ r.toVisit, x ∉ r.visited) := by
  obtain ⟨r, hr, hrinv⟩ := crawlSiteSimpleM_sound web links sitemapUrls
    startUrl maxPages p hp
  exact ⟨r, hr, hrinv.pages_nodup, hrinv.vis_nodup, hrinv.tv_nodup,
    hrinv.pages_vis, hrinv.tv_fresh⟩

/-- Witness for `crawl_visits_each_url_at_most_once` on a web whose only page
links to itself (a one-page link cycle). -/
theorem crawl_visits_each_url_at_most_once_witness :
    ∃ r, crawlSiteSimpleM [("https://example.com/", 200, "A")]
        (fun h _ => if h = "A" then ["https://example.com/"] else [])
        [] "https://example.com/" 2000 = some r ∧
      (r.pages.map Prod.fst).Nodup ∧
      r.visited.Nodup ∧
      r.toVisit.Nodup ∧
      (∀ pg ∈ r.pages, pg.1 ∈ r.visited) ∧
      (∀ x ∈ r.toVisit, x ∉ r.visited) :=
  crawl_visits_each_url_at_most_once [("https://example.com/", 200, "A")]
    (fun h _ => if h = "A" then ["https://example.com/"] else [])
    [] "https://example.com/" 2000
    ⟨"https", "example.com", "/", "", ""⟩ (by decide)

/-! ## Claim C8 — 404 skipped silently, other failures logged, crawl continues -/

/-- Claim C8 (confirmed): in the crawl loop shared by both backends, a URL
answering 404 is skipped and never logged; every visited URL whose fetch
failed otherwise *is* logged — a transport failure as a status-less entry, a
non-404 status ≥ 400 as a status entry — and every logged entry records a
real such failure; a failed fetch never yields a page (every fetched page
comes from a response with status < 400 and carries its body); and no
page-level fetch failure aborts the loop (the crawl completes, `some r`). -/
theorem crawl_404_skipped_other_failures_logged
    (web : List (String × Nat × String))
    (links : String → String → List String) (sitemapUrls : List String)
    (startUrl : String) (maxPages : Nat) (p : UrlParts)
    (hp : parseUrl startUrl = some p) :
    ∃ r, crawlSiteSimpleM web links sitemapUrls startUrl maxPages = some r ∧
      (∀ u s, (u, some s) ∈ r.errors →
        400 ≤ s ∧ s ≠ 404 ∧ ∃ h, lookupWeb web u = some (s, h)) ∧
      (∀ u, (u, none) ∈ r.errors → lookupWeb web u = none) ∧
      (∀ u h, lookupWeb web u = some (404, h) → ∀ e, (u, e) ∉ r.errors) ∧
      (∀ u ∈ r.visited, lookupWeb web u = none → (u, none) ∈ r.errors) ∧
      (∀ u ∈ r.visited, ∀ sh, lookupWeb web u = some sh → 400 ≤ sh.1 →
        sh.1 ≠ 404 → (u, some sh.1) ∈ r.errors) ∧
      (∀ pg ∈ r.pages, ∃ sh, lookupWeb web pg.1 = some sh ∧ sh.1 < 400 ∧
        pg.2 = sh.2) := by
  obtain ⟨r, hr, hrinv⟩ := crawlSiteSimpleM_sound web links sitemapUrls
    startUrl maxPages p hp
  have hsome : ∀ u s, (u, some s) ∈ r.errors →
      400 ≤ s ∧ s ≠ 404 ∧ ∃ h, lookupWeb web u = some (s, h) :=
    fun u s hm => (hrinv.err_ok (u, some s) hm).2 s rfl
  have hnone : ∀ u, (u, none) ∈ r.errors → lookupWeb web u = none :=
    fun u hm => (hrinv.err_ok (u, none) hm).1 rfl
  refine ⟨r, hr, hsome, hnone, ?_, hrinv.err_none_complete,
    hrinv.err_status_complete, hrinv.pages_ok⟩
  intro u h hl e hmem
  cases e with
  | none => exact absurd (hnone u hmem) (by rw [hl]; simp)
  | some s =>
    obtain ⟨_, hne, h', hl'⟩ := hsome u s hmem
    rw [hl] at hl'
    exact hne (by simpa using congrArg (fun o => (Option.map Prod.fst o)) hl'.symm)

/-- Witness for `crawl_404_skipped_other_failures_logged` on a web with a
404 page, a 500 page and a transport failure (`/lost` is absent from the
web), all linked from the fetched start page. -/
theorem crawl_404_skipped_other_failures_logged_witness :
    ∃ r, crawlSiteSimpleM
        [("https://example.com/", 200, "A"),
         ("https://example.com/gone", 404, ""),
         ("https://example.com/bad", 500, "x")]
        (fun h _ => if h = "A" then
            ["https://example.com/gone", "https://example.com/bad",
             "https://example.com/lost"] else [])
        [] "https://example.com/" 2000 = some r ∧
      (∀ u s, (u, some s) ∈ r.errors →
        400 ≤ s ∧ s ≠ 404 ∧ ∃ h, lookupWeb
          [("https://example.com/", 200, "A"),
           ("https://example.com/gone", 404, ""),
           ("https://example.com/bad", 500, "x")] u = some (s, h)) ∧
      (∀ u, (u, none) ∈ r.errors → lookupWeb
          [("https://example.com/", 200, "A"),
           ("https://example.com/gone", 404, ""),
           ("https://example.com/bad", 500, "x")] u = none) ∧
      (∀ u h, lookupWeb
          [("https://example.com/", 200, "A"),
           ("https://example.com/gone", 404, ""),
           ("https://example.com/bad", 500, "x")] u = some (404, h) →
        ∀ e, (u, e) ∉ r.errors) ∧
      (∀ u ∈ r.visited, lookupWeb
          [("https://example.com/", 200, "A"),
           ("https://example.com/gone", 404, ""),
           ("https://example.com/bad", 500, "x")] u = none →
        (u, none) ∈ r.errors) ∧
      (∀ u ∈ r.visited, ∀ sh, lookupWeb
          [("https://example.com/", 200, "A"),
           ("https://example.com/gone", 404, ""),
           ("https://example.com/bad", 500, "x")] u = some sh → 400 ≤ sh.1 →
        sh.1 ≠ 404 → (u, some sh.1) ∈ r.errors) ∧
      (∀ pg ∈ r.pages, ∃ sh, lookupWeb
          [("https://example.com/", 200, "A"),
           ("https://example.com/gone", 404, ""),
           ("https://example.com/bad", 500, "x")] pg.1 = some sh ∧ sh.1 < 400 ∧
        pg.2 = sh.2) :=
  crawl_404_skipped_other_failures_logged
    [("https://example.com/", 200, "A"),
     ("https://example.com/gone", 404, ""),
     ("https://example.com/bad", 500, "x")]
    (fun h _ => if h = "A" then
        ["https://example.com/gone", "https://example.com/bad",
         "https://example.com/lost"] else [])
    [] "https://example.com/" 2000
    ⟨"https", "example.com", "/", "", ""⟩ (by decide)

/-! ## Sitemap reader (`src/crawler.js` 92–126)

Cheerio's XML parse is external; a sitemap document is abstracted as its
ordered `<loc>` elements, each tagged with its enclosing element so that the
selectors `$('url loc')`, `$('sitemap loc')` and `$('loc')` are the evident
filters. -/

/-- Enclosing element of a `<loc>` entry. -/
inductive LocKind where
  | urlLoc
  | sitemapLoc
  | bareLoc
  deriving Repr, DecidableEq

/-- A sitemap XML document as its `<loc>` entries (kind, text). -/
structure SitemapDoc where
  locs : List (LocKind × String)
  deriving Repr, DecidableEq

/-- `$('url loc')` texts. -/
def SitemapDoc.urlLocs (d : SitemapDoc) : List String :=
  (d.locs.filter (fun e => e.1 = LocKind.urlLoc)).map (fun e => e.2)

/-- `$('sitemap loc')` texts. -/
def SitemapDoc.sitemapLocs (d : SitemapDoc) : List String :=
  (d.locs.filter (fun e => e.1 = LocKind.sitemapLoc)).map (fun e => e.2)

/-- `$('loc')` texts. -/
def SitemapDoc.allLocs (d : SitemapDoc) : List String :=
  d.locs.map (fun e => e.2)

/-- Feed filter of `parseSitemap`:
`lower.endsWith('.rss') || lower.endsWith('.xml') || lower.includes('/rss') || lower.includes('/feed')`. -/
def feedLike (loc : String) : Bool :=
  let lower := jsLower loc
  strEnds lower ".rss" || strEnds lower ".xml" ||
    jsIncludes lower "/rss" || jsIncludes lower "/feed"

/-- `Set.add` on an insertion-ordered list. -/
def addUniq (xs : List String) (x : String) : List String :=
  if xs.contains x then xs else xs ++ [x]

/-- The `$('url loc').each`/bare-`$('loc').each` body: trim, require internal,
drop feed-like, add the normalized URL. -/
def sitemapCollect (baseOrigin : String) (acc : List String) (loc0 : String) :
    List String :=
  let loc := jsTrim loc0
  if loc = "" || !isInternalUrl baseOrigin loc then acc
  else if feedLike loc then acc
  else addUniq acc (normalizeUrl loc)

/-- `parseSitemap(sitemapUrl, baseOrigin)` (`crawler.js` 92–126), depth-fuelled:
`none` means the recursion exceeded every finite depth (the JavaScript original
has no cycle guard and recurses without bound there); fetch failures and
non-200 responses are swallowed (`some []`), and each level expands at most
the first 100 `<sitemap><loc>` entries (`subs.slice(0, 100)`). -/
def parseSitemapF (fetch : String → Option (Nat × SitemapDoc))
    (baseOrigin : String) : Nat → String → Option (List String)
  | 0, _ => none
  | fuel + 1, sitemapUrl =>
    match fetch sitemapUrl with
    | none => some []
    | some (status, doc) =>
      if status ≠ 200 then some []
      else
        let urls1 := doc.urlLocs.foldl (sitemapCollect baseOrigin) []
        let subs := doc.sitemapLocs.foldl (fun acc loc0 =>
          let loc := jsTrim loc0
          if loc ≠ "" && isInternalUrl baseOrigin loc then acc ++ [loc] else acc) []
        let urls2 :=
          if doc.allLocs.length ≠ 0 && doc.urlLocs.length = 0 then
            doc.allLocs.foldl (sitemapCollect baseOrigin) urls1
          else urls1
        (subs.take 100).foldl (fun macc sub =>
          match macc with
          | none => none
          | some acc =>
            match parseSitemapF fetch baseOrigin fuel sub with
            | none => none
            | some subUrls => some (subUrls.foldl addUniq acc)) (some urls2)

/-- The failing input of claim C3: a sitemap that lists itself as its only
sub-sitemap. -/
def selfSitemapFetch : String → Option (Nat × SitemapDoc) :=
  fun u =>
    if u = "https://example.com/sitemap.xml" then
      some (200, ⟨[(LocKind.sitemapLoc, "https://example.com/sitemap.xml")]⟩)
    else none

/-- Claim C3 (code bug): sitemap expansion does *not* terminate on a
self-referential sitemap tree.  `subs.slice(0, 100)` caps only the width per
level; there is no visited set or depth bound, so a sitemap listing itself
recurses beyond every finite depth — the fuelled model returns `none` (fuel
exhausted) for every fuel value on this input. -/
theorem parseSitemap_self_reference_diverges :
    ∀ fuel, parseSitemapF selfSitemapFetch "https://example.com" fuel
      "https://example.com/sitemap.xml" = none := by
  intro fuel
  induction fuel with
  | zero => rfl
  | succ n ih =>
    have hstep : parseSitemapF selfSitemapFetch "https://example.com" (n + 1)
        "https://example.com/sitemap.xml"
      = (match parseSitemapF selfSitemapFetch "https://example.com" n
            "https://example.com/sitemap.xml" with
         | none => none
         | some subUrls => some (subUrls.foldl addUniq [])) := rfl
    rw [hstep, ih]

/-! ## Job failure decision (`src/cloner.js` 62–71) -/

/-- The HTML-page filter of `runCloneJob` (cloner.js 63–66): keep a crawled
page only if its trimmed lowercased HTML contains `<html` or `<!doctype`, or
both `<body` and `</body>`. -/
def htmlLike (html : String) : Bool :=
  let h := jsLower (jsTrim html)
  jsIncludes h "<html" || jsIncludes h "<!doctype" ||
    (jsIncludes h "<body" && jsIncludes h "</body>")

/-- `runCloneJob` throws `'No pages could be fetched'` exactly when the
crawled pages, filtered by `htmlLike`, are empty (cloner.js 69–71); every
later stage is wrapped in its own try/catch. -/
def cloneJobFails (pages : List (String × String)) : Bool :=
  (pages.filter (fun p => htmlLike p.2)).length = 0

/-- Claim C7, refutation: a crawl that successfully fetches one page (status
200) whose body is not HTML-like still makes the job fail — the fatal error
does not require zero successful fetches. -/
theorem runCloneJob_fails_despite_fetched_page_cex :
    crawlSiteSimpleM [("https://example.com/", 200, "hello")]
        (fun _ _ => []) [] "https://example.com/" 2000
      = some ⟨[("https://example.com/", "hello")], ["https://example.com/"], [], []⟩ ∧
    cloneJobFails [("https://example.com/", "hello")] = true := by
  decide

/-- Claim C7 (amended): the clone job raises its fatal error iff the crawl
yields zero pages that pass the HTML-likeness filter — equivalently, iff
every successfully fetched page fails `htmlLike`; fetching at least one
HTML-like page prevents the fatal error. -/
theorem cloneJob_fails_iff_no_htmlLike_page
    (web : List (String × Nat × String))
    (links : String → String → List String) (sitemapUrls : List String)
    (startUrl : String) (maxPages : Nat) (p : UrlParts)
    (hp : parseUrl startUrl = some p) :
    ∃ r, crawlSiteSimpleM web links sitemapUrls startUrl maxPages = some r ∧
      (cloneJobFails r.pages = true ↔ ∀ pg ∈ r.pages, htmlLike pg.2 = false) := by
  obtain ⟨r, hr, _⟩ := crawlSiteSimpleM_sound web links sitemapUrls
    startUrl maxPages p hp
  refine ⟨r, hr, ?_⟩
  unfold cloneJobFails
  rw [decide_eq_true_eq, List.length_eq_zero, List.filter_eq_nil_iff]
  constructor
  · intro h pg hpg
    simpa using h pg hpg
  · intro h pg hpg
    simp [h pg hpg]

/-- Witness for `cloneJob_fails_iff_no_htmlLike_page` on the one-page
non-HTML crawl of the counterexample. -/
theorem cloneJob_fails_iff_no_htmlLike_page_witness :
    ∃ r, crawlSiteSimpleM [("https://example.com/", 200, "hello")]
        (fun _ _ => []) [] "https://example.com/" 2000 = some r ∧
      (cloneJobFails r.pages = true ↔ ∀ pg ∈ r.pages, htmlLike pg.2 = false) :=
  cloneJob_fails_iff_no_htmlLike_page [("https://example.com/", 200, "hello")]
    (fun _ _ => []) [] "https://example.com/" 2000
    ⟨"https", "example.com", "/", "", ""⟩ (by decide)

/-! ## Asset download maps (`src/extractors/images.js` 177–211 and
`src/extractors/fonts.js` 101–126)

The filename derivations (`urlToFilename`, `urlToFontFilename`: path/mime
machinery) are abstracted as a parameter `toFilename`, and `fetchBuffer`
success as a predicate `fetchOk`; the claim concerns which keys each download
loop stores.  `fs.existsSync` is tracked by the `files` component (the output
directory is freshly created per job). -/

/-- `normalizeImageUrl(url)` (images.js 20–29): strip query and hash, the
input itself on parse failure. -/
def normalizeImageUrl (url : String) : String :=
  match parseUrl url with
  | some u => UrlParts.href { u with query := "", frag := "" }
  | none => url

/-- JavaScript `Map.set`: overwrite the existing entry in place or append. -/
def mapSet (m : List (String × String)) (k v : String) : List (String × String) :=
  if m.any (fun e => e.1 == k) then
    m.map (fun e => if e.1 == k then (k, v) else e)
  else m ++ [(k, v)]

/-- JavaScript `Map.get`, as an `Option`. -/
def mapGet (m : List (String × String)) (k : String) : Option String :=
  (m.find? (fun e => e.1 == k)).map (fun e => e.2)

/-- State of the `downloadImages` loop. -/
structure DlImagesState where
  saved : List (String × String)
  seen : List String
  files : List String
  deriving Repr, DecidableEq

/-- One iteration of the `downloadImages` loop (images.js 182–208). -/
def downloadImagesStep (toFilename : String → String) (fetchOk : String → Bool)
    (st : DlImagesState) (url : String) : DlImagesState :=
  if !isFetchableUrl url then st
  else
    let normalized := normalizeImageUrl url
    if st.seen.contains normalized then st
    else
      let seen' := st.seen ++ [normalized]
      let filename := toFilename url
      let localPath := "./assets/images/" ++ filename
      if st.files.contains filename then
        { saved := mapSet (mapSet st.saved url localPath) normalized localPath,
          seen := seen', files := st.files }
      else if fetchOk url then
        { saved := mapSet (mapSet st.saved url localPath) normalized localPath,
          seen := seen', files := st.files ++ [filename] }
      else
        { st with seen := seen' }

/-- `downloadImages(urls, ...)` (images.js 177–211): the resulting map. -/
def downloadImagesM (toFilename : String → String) (fetchOk : String → Bool)
    (urls : List String) : List (String × String) :=
  (urls.foldl (downloadImagesStep toFilename fetchOk) ⟨[], [], []⟩).saved

/-- State of the `downloadFonts` loop. -/
structure DlFontsState where
  saved : List (String × String)
  files : List String
  deriving Repr, DecidableEq

/-- One iteration of the `downloadFonts` loop (fonts.js 105–123): note it
stores only the exact source URL, with no normalized variant and no seen set. -/
def downloadFontsStep (toFilename : String → String) (fetchOk : String → Bool)
    (st : DlFontsState) (url : String) : DlFontsState :=
  if !isFetchableUrl url then st
  else
    let filename := toFilename url
    let localPath := "./assets/fonts/" ++ filename
    if st.files.contains filename then
      { saved := mapSet st.saved url localPath, files := st.files }
    else if fetchOk url then
      { saved := mapSet st.saved url localPath, files := st.files ++ [filename] }
    else st

/-- `downloadFonts(urls, ...)` (fonts.js 101–126): the resulting map. -/
def downloadFontsM (toFilename : String → String) (fetchOk : String → Bool)
    (urls : List String) : List (String × String) :=
  (urls.foldl (downloadFontsStep toFilename fetchOk) ⟨[], []⟩).saved

theorem find?_replace_self (m : List (String × String)) (k v : String)
    (hany : m.any (fun e => e.1 == k) = true) :
    (m.map (fun e => if e.1 == k then (k, v) else e)).find? (fun e => e.1 == k)
      = some (k, v) := by
  induction m with
  | nil => simp at hany
  | cons e rest ih =>
    rw [List.map_cons]
    by_cases he : e.1 = k
    · rw [if_pos (by simpa using he)]
      exact List.find?_cons_of_pos _ (by simp)
    · rw [if_neg (by simpa using he)]
      rw [List.find?_cons_of_neg _ (by simpa using he)]
      exact ih (by simpa [he] using hany)

theorem find?_replace_ne (m : List (String × String)) (k v k' : String)
    (hne : k' ≠ k) :
    (m.map (fun e => if e.1 == k then (k, v) else e)).find? (fun e => e.1 == k')
      = m.find? (fun e => e.1 == k') := by
  induction m with
  | nil => rfl
  | cons e rest ih =>
    rw [List.map_cons]
    by_cases he : e.1 = k
    · rw [if_pos (by simpa using he)]
      rw [List.find?_cons_of_neg _ (by simpa using fun hc : k = k' => hne hc.symm)]
      rw [List.find?_cons_of_neg _ (by
        simp only [beq_iff_eq]
        rw [he]
        exact fun hc => hne hc.symm)]
      exact ih
    · rw [if_neg (by simpa using he)]
      by_cases he' : e.1 = k'
      · rw [List.find?_cons_of_pos _ (by simpa using he'),
          List.find?_cons_of_pos _ (by simpa using he')]
      · rw [List.find?_cons_of_neg _ (by simpa using he'),
          List.find?_cons_of_neg _ (by simpa using he')]
        exact ih

theorem mapGet_set_self (m : List (String × String)) (k v : String) :
    mapGet (mapSet m k v) k = some v := by
  unfold mapSet
  split
  · next hany =>
    rw [mapGet, find?_replace_self m k v hany]
    rfl
  · next hany =>
    have hnone : m.find? (fun e => e.1 == k) = none := by
      rw [List.find?_eq_none]
      rw [Bool.not_eq_true] at hany
      exact List.any_eq_false.mp hany
    rw [mapGet, List.find?_append, hnone]
    simp

theorem mapGet_set_ne (m : List (String × String)) (k v k' : String)
    (hne : k' ≠ k) : mapGet (mapSet m k v) k' = mapGet m k' := by
  unfold mapSet
  split
  · rw [mapGet, find?_replace_ne m k v k' hne]
    rfl
  · rw [mapGet, List.find?_append]
    cases hf : m.find? (fun e => e.1 == k') with
    | some x => rw [mapGet, hf]; rfl
    | none =>
      rw [mapGet, hf]
      simp only [Option.none_or]
      rw [List.find?_cons_of_neg _ (by simpa using fun hc : k = k' => hne hc.symm)]
      rfl

theorem dlImagesStep_saved (toFilename : String → String)
    (fetchOk : String → Bool) (st : DlImagesState) (w : String) :
    (downloadImagesStep toFilename fetchOk st w).saved = st.saved ∨
      ((downloadImagesStep toFilename fetchOk st w).saved
        = mapSet (mapSet st.saved w ("./assets/images/" ++ toFilename w))
            (normalizeImageUrl w) ("./assets/images/" ++ toFilename w)) := by
  unfold downloadImagesStep
  dsimp only
  by_cases hf : (!isFetchableUrl w) = true
  · rw [if_pos hf]; exact Or.inl rfl
  · rw [if_neg hf]
    by_cases hs : st.seen.contains (normalizeImageUrl w) = true
    · rw [if_pos hs]; exact Or.inl rfl
    · rw [if_neg hs]
      by_cases hfile : st.files.contains (toFilename w) = true
      · rw [if_pos hfile]; exact Or.inr rfl
      · rw [if_neg hfile]
        by_cases hok : fetchOk w = true
        · rw [if_pos hok]; exact Or.inr rfl
        · rw [if_neg hok]; exact Or.inl rfl

theorem dlImagesStep_seen (toFilename : String → String)
    (fetchOk : String → Bool) (st : DlImagesState) (w : String) :
    (downloadImagesStep toFilename fetchOk st w).seen = st.seen ∨
      (downloadImagesStep toFilename fetchOk st w).seen
        = st.seen ++ [normalizeImageUrl w] := by
  unfold downloadImagesStep
  dsimp only
  by_cases hf : (!isFetchableUrl w) = true
  · rw [if_pos hf]; exact Or.inl rfl
  · rw [if_neg hf]
    by_cases hs : st.seen.contains (normalizeImageUrl w) = true
    · rw [if_pos hs]; exact Or.inl rfl
    · rw [if_neg hs]
      by_cases hfile : st.files.contains (toFilename w) = true
      · rw [if_pos hfile]; exact Or.inr rfl
      · rw [if_neg hfile]
        by_cases hok : fetchOk w = true
        · rw [if_pos hok]; exact Or.inr rfl
        · rw [if_neg hok]; exact Or.inr rfl

theorem dlImages_stable (toFilename : String → String) (fetchOk : String → Bool) :
    ∀ (urls : List String) (st : DlImagesState) (k v : String),
      mapGet st.saved k = some v →
      (∀ u ∈ urls, u ≠ k ∧ normalizeImageUrl u ≠ k) →
      mapGet ((urls.foldl (downloadImagesStep toFilename fetchOk) st).saved) k
        = some v := by
  intro urls
  induction urls with
  | nil => intro st k v h _; exact h
  | cons w rest ih =>
    intro st k v h hne
    rw [List.foldl_cons]
    refine ih _ k v ?_ (fun u hu => hne u (List.mem_cons_of_mem _ hu))
    obtain ⟨hw1, hw2⟩ := hne w (List.mem_cons_self _ _)
    rcases dlImagesStep_saved toFilename fetchOk st w with hsv | hsv
    · rw [hsv]; exact h
    · rw [hsv, mapGet_set_ne _ _ _ _ (Ne.symm hw2), mapGet_set_ne _ _ _ _ (Ne.symm hw1)]
      exact h

theorem dlImages_complete (toFilename : String → String) (fetchOk : String → Bool)
    (hok : ∀ u, fetchOk u = true) :
    ∀ (urls : List String) (st : DlImagesState),
      (urls.map normalizeImageUrl).Nodup →
      (∀ u ∈ urls, normalizeImageUrl (normalizeImageUrl u) = normalizeImageUrl u) →
      (∀ u ∈ urls, normalizeImageUrl u ∉ st.seen) →
      ∀ u ∈ urls, isFetchableUrl u = true →
        mapGet ((urls.foldl (downloadImagesStep toFilename fetchOk) st).saved) u
          = some ("./assets/images/" ++ toFilename u) ∧
        mapGet ((urls.foldl (downloadImagesStep toFilename fetchOk) st).saved)
            (normalizeImageUrl u)
          = some ("./assets/images/" ++ toFilename u) := by
  intro urls
  induction urls with
  | nil => intro st _ _ _ u hu; simp at hu
  | cons w rest ih =>
    intro st hnodup hidem hseen u hu hfet
    rw [List.foldl_cons]
    have hnodup' : (rest.map normalizeImageUrl).Nodup := by
      rw [List.map_cons] at hnodup; exact hnodup.of_cons
    have hnw : ∀ x ∈ rest, normalizeImageUrl x ≠ normalizeImageUrl w := by
      intro x hx hc
      rw [List.map_cons] at hnodup
      rcases List.nodup_cons.mp hnodup with ⟨hni, _⟩
      exact hni (hc ▸ List.mem_map_of_mem normalizeImageUrl hx)
    rcases List.mem_cons.mp hu with hu | hu
    · -- u = w : processed now, keys stable afterwards
      subst hu
      have hsv : (downloadImagesStep toFilename fetchOk st u).saved
          = mapSet (mapSet st.saved u ("./assets/images/" ++ toFilename u))
              (normalizeImageUrl u) ("./assets/images/" ++ toFilename u) := by
        unfold downloadImagesStep
        dsimp only
        rw [if_neg (by simp [hfet])]
        rw [if_neg (by
          simpa using contains_false_iff.mpr (hseen u (List.mem_cons_self _ _)))]
        by_cases hfile : st.files.contains (toFilename u) = true
        · rw [if_pos hfile]
        · rw [if_neg hfile, if_pos (hok u)]
      have hidemu : normalizeImageUrl (normalizeImageUrl u) = normalizeImageUrl u :=
        hidem u (List.mem_cons_self _ _)
      have hkeyu : mapGet (downloadImagesStep toFilename fetchOk st u).saved u
          = some ("./assets/images/" ++ toFilename u) := by
        rw [hsv]
        by_cases hnu : normalizeImageUrl u = u
        · rw [hnu]
          exact mapGet_set_self _ _ _
        · rw [mapGet_set_ne _ _ _ _ (fun hc => hnu hc.symm)]
          exact mapGet_set_self _ _ _
      have hkeyn : mapGet (downloadImagesStep toFilename fetchOk st u).saved
          (normalizeImageUrl u) = some ("./assets/images/" ++ toFilename u) := by
        rw [hsv]
        exact mapGet_set_self _ _ _
      constructor
      · refine dlImages_stable toFilename fetchOk rest _ u _ hkeyu ?_
        intro x hx
        refine ⟨fun hc => hnw x hx (by rw [hc]), fun hc => ?_⟩
        have hcc : normalizeImageUrl x = normalizeImageUrl u := by
          have := congrArg normalizeImageUrl hc
          rwa [hidem x (List.mem_cons_of_mem _ hx)] at this
        exact hnw x hx hcc
      · refine dlImages_stable toFilename fetchOk rest _ (normalizeImageUrl u) _ hkeyn ?_
        intro x hx
        refine ⟨fun hc => ?_, fun hc => hnw x hx hc⟩
        have hcc : normalizeImageUrl x = normalizeImageUrl u := by
          have := congrArg normalizeImageUrl hc
          rwa [hidemu] at this
        exact hnw x hx hcc
    · -- u in the tail: the head step only adds w's normalized form to seen
      refine ih _ hnodup' (fun x hx => hidem x (List.mem_cons_of_mem _ hx)) ?_ u hu hfet
      intro x hx
      have hxs : normalizeImageUrl x ∉ st.seen := hseen x (List.mem_cons_of_mem _ hx)
      have hxw : normalizeImageUrl x ≠ normalizeImageUrl w := hnw x hx
      rcases dlImagesStep_seen toFilename fetchOk st w with hsn | hsn
      · rw [hsn]; exact hxs
      · rw [hsn, List.mem_append]
        rintro (hmem | hmem)
        · exact hxs hmem
        · exact hxw (List.mem_singleton.mp hmem)

theorem dlFontsStep_saved (toFilename : String → String) (fetchOk : String → Bool)
    (st : DlFontsState) (w : String) :
    (downloadFontsStep toFilename fetchOk st w).saved = st.saved ∨
      (downloadFontsStep toFilename fetchOk st w).saved
        = mapSet st.saved w ("./assets/fonts/" ++ toFilename w) := by
  unfold downloadFontsStep
  dsimp only
  by_cases hf : (!isFetchableUrl w) = true
  · rw [if_pos hf]; exact Or.inl rfl
  · rw [if_neg hf]
    by_cases hfile : st.files.contains (toFilename w) = true
    · rw [if_pos hfile]; exact Or.inr rfl
    · rw [if_neg hfile]
      by_cases hok : fetchOk w = true
      · rw [if_pos hok]; exact Or.inr rfl
      · rw [if_neg hok]; exact Or.inl rfl

theorem dlFonts_stable (toFilename : String → String) (fetchOk : String → Bool) :
    ∀ (urls : List String) (st : DlFontsState) (k : String),
      mapGet st.saved k = some ("./assets/fonts/" ++ toFilename k) →
      mapGet ((urls.foldl (downloadFontsStep toFilename fetchOk) st).saved) k
        = some ("./assets/fonts/" ++ toFilename k) := by
  intro urls
  induction urls with
  | nil => intro st k h; exact h
  | cons w rest ih =>
    intro st k h
    rw [List.foldl_cons]
    refine ih _ k ?_
    rcases dlFontsStep_saved toFilename fetchOk st w with hsv | hsv
    · rw [hsv]; exact h
    · rw [hsv]
      by_cases hwk : w = k
      · rw [hwk]
        exact mapGet_set_self _ _ _
      · rw [mapGet_set_ne _ _ _ _ (Ne.symm hwk)]
        exact h

theorem dlFonts_complete (toFilename : String → String) (fetchOk : String → Bool)
    (hok : ∀ u, fetchOk u = true) :
    ∀ (urls : List String) (st : DlFontsState),
      ∀ u ∈ urls, isFetchableUrl u = true →
        mapGet ((urls.foldl (downloadFontsStep toFilename fetchOk) st).saved) u
          = some ("./assets/fonts/" ++ toFilename u) := by
  intro urls
  induction urls with
  | nil => intro st u hu; simp at hu
  | cons w rest ih =>
    intro st u hu hfet
    rw [List.foldl_cons]
    rcases List.mem_cons.mp hu with hu | hu
    · subst hu
      refine dlFonts_stable toFilename fetchOk rest _ u ?_
      have hsv : (downloadFontsStep toFilename fetchOk st u).saved
          = mapSet st.saved u ("./assets/fonts/" ++ toFilename u) := by
        unfold downloadFontsStep
        dsimp only
        rw [if_neg (by simp [hfet])]
        by_cases hfile : st.files.contains (toFilename u) = true
        · rw [if_pos hfile]
        · rw [if_neg hfile, if_pos (hok u)]
      rw [hsv]
      exact mapGet_set_self _ _ _
    · exact ih _ u hu hfet

/-! ## Claim C6 — keys stored by the asset download maps -/

/-- Claim C6, refutation: `downloadFonts` stores a successfully downloaded
font only under its exact source URL — the query-stripped normalized form is
not a key, unlike the image map. -/
theorem downloadFonts_missing_normalized_key_cex :
    downloadFontsM (fun _ => "a.woff2") (fun _ => true)
        ["https://fonts.example.com/a.woff2?v=1"]
      = [("https://fonts.example.com/a.woff2?v=1", "./assets/fonts/a.woff2")] ∧
    normalizeImageUrl "https://fonts.example.com/a.woff2?v=1"
      = "https://fonts.example.com/a.woff2" ∧
    mapGet (downloadFontsM (fun _ => "a.woff2") (fun _ => true)
        ["https://fonts.example.com/a.woff2?v=1"])
      "https://fonts.example.com/a.woff2" = none := by
  decide

/-- Claim C6 (amended): after the download loops complete (all fetches
succeeding), the *image* map contains each fetchable URL under both its exact
source URL and its query/hash-stripped normalized form, both mapped to the
same local path (provided distinct URLs have distinct normalized forms —
duplicates are deduplicated — and normalization is idempotent on the inputs);
the *font* map contains each fetchable URL under its exact source URL only. -/
theorem downloadMaps_key_coverage (toFilename toFontFilename : String → String)
    (fetchOk : String → Bool) (urls fontUrls : List String)
    (hok : ∀ u, fetchOk u = true)
    (hnodup : (urls.map normalizeImageUrl).Nodup)
    (hidem : ∀ u ∈ urls, normalizeImageUrl (normalizeImageUrl u) = normalizeImageUrl u) :
    (∀ u ∈ urls, isFetchableUrl u = true →
      mapGet (downloadImagesM toFilename fetchOk urls) u
        = some ("./assets/images/" ++ toFilename u) ∧
      mapGet (downloadImagesM toFilename fetchOk urls) (normalizeImageUrl u)
        = some ("./assets/images/" ++ toFilename u)) ∧
    (∀ u ∈ fontUrls, isFetchableUrl u = true →
      mapGet (downloadFontsM toFontFilename fetchOk fontUrls) u
        = some ("./assets/fonts/" ++ toFontFilename u)) := by
  constructor
  · intro u hu hfet
    exact dlImages_complete toFilename fetchOk hok urls ⟨[], [], []⟩
      hnodup hidem (by simp) u hu hfet
  · intro u hu hfet
    exact dlFonts_complete toFontFilename fetchOk hok fontUrls ⟨[], []⟩ u hu hfet

/-- Witness for `downloadMaps_key_coverage` with one image URL carrying a
query string and one font URL. -/
theorem downloadMaps_key_coverage_witness :
    (∀ u ∈ ["https://site.com/a.png?v=1"], isFetchableUrl u = true →
      mapGet (downloadImagesM (fun _ => "a.png") (fun _ => true)
          ["https://site.com/a.png?v=1"]) u
        = some ("./assets/images/" ++ "a.png") ∧
      mapGet (downloadImagesM (fun _ => "a.png") (fun _ => true)
          ["https://site.com/a.png?v=1"]) (normalizeImageUrl u)
        = some ("./assets/images/" ++ "a.png")) ∧
    (∀ u ∈ ["https://site.com/f.woff2?v=2"], isFetchableUrl u = true →
      mapGet (downloadFontsM (fun _ => "f.woff2") (fun _ => true)
          ["https://site.com/f.woff2?v=2"]) u
        = some ("./assets/fonts/" ++ "f.woff2")) :=
  downloadMaps_key_coverage (fun _ => "a.png") (fun _ => "f.woff2") (fun _ => true)
    ["https://site.com/a.png?v=1"] ["https://site.com/f.woff2?v=2"]
    (fun _ => rfl) (by decide) (by decide)

/-! ## HTML slug assignment (`src/extractors/html.js` 13–51) -/

/-- Decimal digit character. -/
def digitCh (d : Nat) : Char :=
  match d with
  | 0 => '0' | 1 => '1' | 2 => '2' | 3 => '3' | 4 => '4'
  | 5 => '5' | 6 => '6' | 7 => '7' | 8 => '8' | _ => '9'

/-- Decimal rendering of a natural number, fuelled so that it evaluates in
the kernel (fuel `n + 1` always suffices). -/
def natDecAux : Nat → Nat → List Char
  | 0, _ => []
  | fuel + 1, n =>
    if n < 10 then [digitCh n] else natDecAux fuel (n / 10) ++ [digitCh (n % 10)]

/-- Decimal rendering of a natural number, as JavaScript `${n}` produces. -/
def natDec (n : Nat) : String :=
  ⟨natDecAux (n + 1) n⟩

/-- Value of a decimal digit character. -/
def chVal (c : Char) : Nat :=
  match c with
  | '0' => 0 | '1' => 1 | '2' => 2 | '3' => 3 | '4' => 4
  | '5' => 5 | '6' => 6 | '7' => 7 | '8' => 8 | _ => 9

/-- Value of a decimal digit string. -/
def decVal (cs : List Char) : Nat :=
  cs.foldl (fun acc c => acc * 10 + chVal c) 0

theorem chVal_digitCh {d : Nat} (hd : d < 10) : chVal (digitCh d) = d := by
  interval_cases d <;> rfl

theorem decVal_append_digit (cs : List Char) (c : Char) :
    decVal (cs ++ [c]) = decVal cs * 10 + chVal c := by
  unfold decVal
  rw [List.foldl_append]
  rfl

theorem natDecAux_roundtrip : ∀ fuel n, n < 10 ^ fuel →
    decVal (natDecAux fuel n) = n := by
  intro fuel
  induction fuel with
  | zero =>
    intro n hn
    interval_cases n
    rfl
  | succ fuel ih =>
    intro n hn
    by_cases h10 : n < 10
    · unfold natDecAux
      rw [if_pos h10]
      show 0 * 10 + chVal (digitCh n) = n
      rw [chVal_digitCh h10]
      omega
    · unfold natDecAux
      rw [if_neg h10]
      rw [decVal_append_digit]
      have hdiv : n / 10 < 10 ^ fuel := by
        rw [Nat.div_lt_iff_lt_mul (by norm_num)]
        calc n < 10 ^ (fuel + 1) := hn
        _ = 10 ^ fuel * 10 := by ring
      rw [ih (n / 10) hdiv, chVal_digitCh (Nat.mod_lt n (by norm_num))]
      omega

theorem natDec_inj {a b : Nat} (h : natDec a = natDec b) : a = b := by
  have hdata : natDecAux (a + 1) a = natDecAux (b + 1) b := congrArg String.data h
  have hva : decVal (natDecAux (a + 1) a) = a :=
    natDecAux_roundtrip (a + 1) a (lt_of_lt_of_le (Nat.lt_two_pow a)
      (le_trans (Nat.pow_le_pow_right (by norm_num) (Nat.le_succ a))
        (Nat.pow_le_pow_left (by norm_num) (a + 1))))
  have hvb : decVal (natDecAux (b + 1) b) = b :=
    natDecAux_roundtrip (b + 1) b (lt_of_lt_of_le (Nat.lt_two_pow b)
      (le_trans (Nat.pow_le_pow_right (by norm_num) (Nat.le_succ b))
        (Nat.pow_le_pow_left (by norm_num) (b + 1))))
  rw [← hva, ← hvb, hdata]

/-- \`${slug}-${n}\` of the collision loop (html.js 38). -/
def slugCand (slug : String) (n : Nat) : String :=
  slug ++ "-" ++ natDec n

theorem slugCand_inj {slug : String} {m n : Nat}
    (h : slugCand slug m = slugCand slug n) : m = n := by
  unfold slugCand at h
  have hdata := congrArg String.data h
  simp only [String.data_append] at hdata
  have := List.append_cancel_left hdata
  exact natDec_inj (String.ext this)

theorem contains_true_iff {l : List String} {a : String} :
    l.contains a = true ↔ a ∈ l := by
  simp [List.contains]

theorem slugCand_ne_index (slug : String) (n : Nat) :
    slugCand slug n ≠ "index" := by
  intro h
  have hdata := congrArg String.data h
  simp only [slugCand, String.data_append] at hdata
  have hm : '-' ∈ slug.data ++ ['-'] ++ (natDec n).data :=
    List.mem_append.mpr (Or.inl (List.mem_append.mpr (Or.inr (by decide))))
  rw [hdata] at hm
  exact absurd hm (by decide)

/-- The `while (usedSlugs.has(slug-n)) n++` search (html.js 37–39), fuelled. -/
def firstFreeAux (used : List String) (slug : String) : Nat → Nat → String
  | n, 0 => slugCand slug n
  | n, fuel + 1 =>
    if used.contains (slugCand slug n) then firstFreeAux used slug (n + 1) fuel
    else slugCand slug n

/-- Slug deduplication of `extractHtml` (html.js 36–41): if the slug is
taken, append the first free `-n` suffix (fuel `used.length + 1` provably
suffices). -/
def uniqueSlug (used : List String) (slug : String) : String :=
  if used.contains slug then firstFreeAux used slug 1 (used.length + 1) else slug

/-- The used candidates at indices `n, n+1, …, n+fuel-1`. -/
def candList (used : List String) (slug : String) : Nat → Nat → List String
  | _, 0 => []
  | n, fuel + 1 =>
    (if used.contains (slugCand slug n) then [slugCand slug n] else [])
      ++ candList used slug (n + 1) fuel

theorem candList_shape (used : List String) (slug : String) :
    ∀ fuel n x, x ∈ candList used slug n fuel →
      ∃ m, n ≤ m ∧ x = slugCand slug m ∧ x ∈ used := by
  intro fuel
  induction fuel with
  | zero => intro n x hx; simp [candList] at hx
  | succ fuel ih =>
    intro n x hx
    unfold candList at hx
    rcases List.mem_append.mp hx with hx | hx
    · split at hx
      · next hc =>
        refine ⟨n, le_refl n, List.mem_singleton.mp hx, ?_⟩
        rw [List.mem_singleton.mp hx]
        exact contains_true_iff.mp hc
      · simp at hx
    · obtain ⟨m, hm, hxe, hxu⟩ := ih (n + 1) x hx
      exact ⟨m, by omega, hxe, hxu⟩

theorem candList_nodup (used : List String) (slug : String) :
    ∀ fuel n, (candList used slug n fuel).Nodup := by
  intro fuel
  induction fuel with
  | zero => intro n; simp [candList]
  | succ fuel ih =>
    intro n
    unfold candList
    split
    · refine List.nodup_append.mpr ⟨List.nodup_singleton _, ih (n + 1), ?_⟩
      intro x hx hx'
      obtain ⟨m, hm, hxe, _⟩ := candList_shape used slug fuel (n + 1) x hx'
      rw [List.mem_singleton.mp hx] at hxe
      have := slugCand_inj hxe
      omega
    · simpa using ih (n + 1)

theorem candList_length_le (used : List String) (slug : String)
    (fuel n : Nat) : (candList used slug n fuel).length ≤ used.length := by
  have hnd := candList_nodup used slug fuel n
  have hsub : candList used slug n fuel ⊆ used := by
    intro x hx
    obtain ⟨_, _, _, hxu⟩ := candList_shape used slug fuel n x hx
    exact hxu
  calc (candList used slug n fuel).length
      = (candList used slug n fuel).toFinset.card := (List.toFinset_card_of_nodup hnd).symm
    _ ≤ used.toFinset.card := Finset.card_le_card (fun x hx =>
        List.mem_toFinset.mpr (hsub (List.mem_toFinset.mp hx)))
    _ ≤ used.length := List.toFinset_card_le used

theorem firstFreeAux_not_mem (used : List String) (slug : String) :
    ∀ fuel n, (candList used slug n fuel).length < fuel →
      firstFreeAux used slug n fuel ∉ used := by
  intro fuel
  induction fuel with
  | zero => intro n h; exact absurd h (Nat.not_lt_zero _)
  | succ fuel ih =>
    intro n h
    unfold firstFreeAux
    by_cases hc : used.contains (slugCand slug n) = true
    · rw [if_pos hc]
      refine ih (n + 1) ?_
      unfold candList at h
      rw [if_pos hc] at h
      simpa using h
    · rw [if_neg hc]
      exact contains_false_iff.mp (by simpa using hc)

theorem uniqueSlug_not_mem (used : List String) (slug : String) :
    uniqueSlug used slug ∉ used := by
  unfold uniqueSlug
  by_cases hc : used.contains slug = true
  · rw [if_pos hc]
    refine firstFreeAux_not_mem used slug (used.length + 1) 1 ?_
    exact Nat.lt_succ_of_le (candList_length_le used slug (used.length + 1) 1)
  · rw [if_neg hc]
    exact contains_false_iff.mp (by simpa using hc)

theorem firstFreeAux_shape (used : List String) (slug : String) :
    ∀ fuel n, ∃ m, firstFreeAux used slug n fuel = slugCand slug m := by
  intro fuel
  induction fuel with
  | zero => intro n; exact ⟨n, rfl⟩
  | succ fuel ih =>
    intro n
    unfold firstFreeAux
    by_cases hcc : used.contains (slugCand slug n) = true
    · rw [if_pos hcc]; exact ih (n + 1)
    · rw [if_neg hcc]; exact ⟨n, rfl⟩

theorem uniqueSlug_shape (used : List String) (slug : String) :
    uniqueSlug used slug = slug ∨ ∃ n, uniqueSlug used slug = slugCand slug n := by
  unfold uniqueSlug
  by_cases hc : used.contains slug = true
  · rw [if_pos hc]
    exact Or.inr (firstFreeAux_shape used slug (used.length + 1) 1)
  · rw [if_neg hc]; exact Or.inl rfl

/-- Collapse runs of dashes (the dash-run global replace of html.js 17),
tracking whether the previous character was a dash. -/
def squeezeDashGo : Bool → List Char → List Char
  | _, [] => []
  | prevDash, c :: rest =>
    if c = '-' then
      if prevDash then squeezeDashGo true rest else '-' :: squeezeDashGo true rest
    else c :: squeezeDashGo false rest

/-- `replace(/^-|-$/g, '')`: drop one leading and one trailing dash. -/
def trimDashes (s : String) : String :=
  let d1 := if strStarts s "-" then s.drop 1 else s
  if strEnds d1 "-" then d1.dropRight 1 else d1

/-- `urlToSlug(url)` (html.js 13–22). -/
def urlToSlug (url : String) : String :=
  match parseUrl url with
  | none => "page"
  | some u =>
    let p0 := if strEnds u.path "/" then u.path.dropRight 1 else u.path
    let p1 := if p0 = "" then "index" else p0
    let p2 := if strStarts p1 "/" then p1.drop 1 else p1
    let p3 : String := ⟨p2.data.map (fun c => if c = '/' then '-' else c)⟩
    let p4 : String := ⟨p3.data.map (fun c =>
      if c.isAlphanum || c = '-' || c = '_' then c else '-')⟩
    let p5 : String := ⟨squeezeDashGo false p4.data⟩
    let p6 := trimDashes p5
    if p6 = "" then "index" else p6

/-- Slug-to-filename rule of `extractHtml` (html.js 43). -/
def slugFile (slug : String) : String :=
  if slug = "index" then "index.html" else slug ++ ".html"

/-- One iteration of the `extractHtml` loop (html.js 33–48): dedup the slug
against the used set, record it, emit `(url, filename)`. -/
def extractHtmlStep (st : List String × List (String × String)) (url : String) :
    List String × List (String × String) :=
  let slug := uniqueSlug st.1 (urlToSlug url)
  (st.1 ++ [slug], st.2 ++ [(url, slugFile slug)])

/-- `extractHtml(pages, outputDir)` (html.js 28–51), restricted to the
`(url, filename)` assignment (the writes are I/O). -/
def extractHtmlFiles (urls : List String) : List (String × String) :=
  (urls.foldl extractHtmlStep ([], [])).2

theorem slugFile_inj : Function.Injective slugFile := by
  intro a b h
  unfold slugFile at h
  by_cases ha : a = "index"
  · by_cases hb : b = "index"
    · rw [ha, hb]
    · rw [if_pos ha, if_neg hb] at h
      have hdata : "index".data ++ ".html".data = b.data ++ ".html".data := by
        have := congrArg String.data h
        simpa [String.data_append] using this
      exact absurd (String.ext (List.append_cancel_right hdata)).symm hb
  · by_cases hb : b = "index"
    · rw [if_neg ha, if_pos hb] at h
      have hdata : a.data ++ ".html".data = "index".data ++ ".html".data := by
        have := congrArg String.data h
        simpa [String.data_append] using this
      exact absurd (String.ext (List.append_cancel_right hdata)) ha
    · rw [if_neg ha, if_neg hb] at h
      have hdata : a.data ++ ".html".data = b.data ++ ".html".data := by
        have := congrArg String.data h
        simpa [String.data_append] using this
      exact String.ext (List.append_cancel_right hdata)

theorem extractHtml_inv : ∀ (urls : List String) (used : List String)
    (out : List (String × String)),
    used.Nodup → out.map Prod.snd = used.map slugFile →
    (urls.foldl extractHtmlStep (used, out)).1.Nodup ∧
      (urls.foldl extractHtmlStep (used, out)).2.map Prod.snd
        = (urls.foldl extractHtmlStep (used, out)).1.map slugFile := by
  intro urls
  induction urls with
  | nil => intro used out h1 h2; exact ⟨h1, h2⟩
  | cons w rest ih =>
    intro used out h1 h2
    rw [List.foldl_cons]
    unfold extractHtmlStep
    refine ih _ _ ?_ ?_
    · exact List.nodup_append.mpr ⟨h1, List.nodup_singleton _,
        by simpa [List.disjoint_right] using
          fun hm => (uniqueSlug_not_mem used (urlToSlug w) hm).elim⟩
    · rw [List.map_append, List.map_append, h2]
      rfl

theorem extractHtml_mem_mono : ∀ (urls : List String)
    (st : List String × List (String × String)) (x : String),
    x ∈ st.2.map Prod.snd → x ∈ (urls.foldl extractHtmlStep st).2.map Prod.snd := by
  intro urls
  induction urls with
  | nil => intro st x h; exact h
  | cons w rest ih =>
    intro st x h
    rw [List.foldl_cons]
    refine ih _ x ?_
    unfold extractHtmlStep
    rw [List.map_append]
    exact List.mem_append.mpr (Or.inl h)

theorem extractHtml_index : ∀ (urls : List String) (used : List String)
    (out : List (String × String)), "index" ∉ used →
    (∃ u ∈ urls, urlToSlug u = "index") →
    "index.html" ∈ (urls.foldl extractHtmlStep (used, out)).2.map Prod.snd := by
  intro urls
  induction urls with
  | nil => rintro used out _ ⟨u, hu, _⟩; simp at hu
  | cons w rest ih =>
    rintro used out hni ⟨u, hu, hus⟩
    rw [List.foldl_cons]
    by_cases hw : urlToSlug w = "index"
    · refine extractHtml_mem_mono rest _ "index.html" ?_
      unfold extractHtmlStep
      rw [hw]
      have hus' : uniqueSlug used "index" = "index" := by
        unfold uniqueSlug
        rw [if_neg (by simpa using contains_false_iff.mpr hni)]
      rw [hus', List.map_append]
      refine List.mem_append.mpr (Or.inr ?_)
      simp [slugFile]
    · have hurest : u ∈ rest := by
        rcases List.mem_cons.mp hu with hu | hu
        · exact absurd (hu ▸ hus) hw
        · exact hu
      unfold extractHtmlStep
      refine ih _ _ ?_ ⟨u, hurest, hus⟩
      rw [List.mem_append]
      rintro (hmem | hmem)
      · exact hni hmem
      · rcases uniqueSlug_shape used (urlToSlug w) with hsh | ⟨n, hsh⟩
        · rw [hsh] at hmem
          exact hw (List.mem_singleton.mp hmem).symm
        · rw [hsh] at hmem
          exact slugCand_ne_index _ n (List.mem_singleton.mp hmem).symm

/-! ## Claim C10 — distinct output filenames -/

/-- Claim C10 (confirmed): `extractHtml` assigns pairwise-distinct filenames
— colliding slugs receive the first free `-n` suffix — and whenever some
page's slug is `index`, the file `index.html` is among the outputs (the
first such page receives it). -/
theorem extractHtml_filenames_distinct (urls : List String) :
    ((extractHtmlFiles urls).map Prod.snd).Nodup ∧
    ((∃ u ∈ urls, urlToSlug u = "index") →
      "index.html" ∈ (extractHtmlFiles urls).map Prod.snd) := by
  constructor
  · have h := extractHtml_inv urls [] [] List.nodup_nil (by simp)
    rw [extractHtmlFiles, h.2]
    exact h.1.map slugFile_inj
  · intro hex
    exact extractHtml_index urls [] [] (by simp) hex

/-- Witness for `extractHtml_filenames_distinct` on a page list with a slug
collision (`/about` and `/about/`) and an `index` page. -/
theorem extractHtml_filenames_distinct_witness :
    ((extractHtmlFiles ["https://example.com/", "https://example.com/about",
        "https://example.com/about/"]).map Prod.snd).Nodup ∧
    "index.html" ∈ (extractHtmlFiles ["https://example.com/",
        "https://example.com/about", "https://example.com/about/"]).map Prod.snd :=
  ⟨(extractHtml_filenames_distinct ["https://example.com/",
      "https://example.com/about", "https://example.com/about/"]).1,
   (extractHtml_filenames_distinct ["https://example.com/",
      "https://example.com/about", "https://example.com/about/"]).2
     ⟨"https://example.com/", by decide, by decide⟩⟩

/-! ## HTML image rewriting, per `<img>` element (`src/rewriter.js` 159–224)

Cheerio's DOM is external: an element is modelled as its attribute list
(`$(el).attr` reads the first entry, `.attr(name, v)` overwrites or appends,
`.removeAttr` deletes).  The `$('img').each` callback is translated below;
the claim is the concrete placeholder-promotion scenario. -/

/-- JavaScript truthiness of an attribute read (`undefined` and `""` are
falsy). -/
def attrTruthy : Option String → Bool
  | none => false
  | some s => s ≠ ""

/-- JavaScript `a || b` over attribute reads. -/
def jsOr (a b : Option String) : Option String :=
  if attrTruthy a then a else b

/-- `$(el).attr(name)`. -/
def attrGet (el : List (String × String)) (name : String) : Option String :=
  mapGet el name

/-- `$(el).attr(name, v)`. -/
def attrSet (el : List (String × String)) (name v : String) :
    List (String × String) :=
  mapSet el name v

/-- `$(el).removeAttr(name)`. -/
def attrRemove (el : List (String × String)) (name : String) :
    List (String × String) :=
  el.filter (fun a => !(a.1 == name))

/-- The placeholder pattern of rewriter.js 183 (case-insensitive substring
alternation over 1x1 / transparent / loading / spacer / blank / placeholder /
data:image / `.gif?` / pixel / dummy). -/
def placeholderTest (s : String) : Bool :=
  let l := jsLower s
  jsIncludes l "1x1" || jsIncludes l "transparent" || jsIncludes l "loading" ||
    jsIncludes l "spacer" || jsIncludes l "blank" || jsIncludes l "placeholder" ||
    jsIncludes l "data:image" || jsIncludes l ".gif?" || jsIncludes l "pixel" ||
    jsIncludes l "dummy"

/-- The three-tier lookup `getLocalPath` of `rewriteHtmlImages`
(rewriter.js 162–174): exact, resolved against the page URL, then
query/hash-stripped.  `baseUrl = ""` models a falsy base. -/
def getLocalPath (imageMap : List (String × String)) (baseUrl : String)
    (url : String) : Option String :=
  match mapGet imageMap url with
  | some v => some v
  | none =>
    let resolved : Option String :=
      if baseUrl ≠ "" && !strStarts url "http" && !strStarts url "data:"
      then resolveUrl url baseUrl else some url
    let second : Option String :=
      match resolved with
      | some r => mapGet imageMap r
      | none => none
    match second with
    | some v => some v
    | none =>
      match parseUrl url with
      | some u => mapGet imageMap (UrlParts.href { u with query := "", frag := "" })
      | none => none

/-- Lazy-load attributes removed on promotion (rewriter.js 189–190). -/
def lazyAttrs : List String :=
  ["data-src", "data-lazy-src", "data-original", "data-image", "data-img",
   "data-slide-src"]

/-- Accumulating splitter for JavaScript `split` on whitespace runs. -/
def wsSplitAux : List Char → List Char → List String
  | acc, [] => if acc = [] then [] else [⟨acc.reverse⟩]
  | acc, c :: rest =>
    if isWsp c then
      if acc = [] then wsSplitAux [] rest
      else (⟨acc.reverse⟩ : String) :: wsSplitAux [] rest
    else wsSplitAux (c :: acc) rest

/-- JavaScript `s.split` on a whitespace-run regex, for strings with no
leading whitespace (the rewriter always applies it to trimmed text). -/
def wsSplit (s : String) : List String :=
  match wsSplitAux [] s.data with
  | [] => [""]
  | r => r

/-- One candidate of a `srcset` rewrite (rewriter.js 198–203). -/
def rewriteSrcsetPart (lookup : String → Option String) (part : String) : String :=
  let trimmed := jsTrim part
  let url := (wsSplit trimmed).headD ""
  match lookup url with
  | some lp =>
    lp ++ (if jsIncludes trimmed " "
      then " " ++ joinWith " " ((wsSplit trimmed).drop 1) else "")
  | none => trimmed

/-- `srcset.split(',').map(...).join(', ')`. -/
def rewriteSrcset (lookup : String → Option String) (srcset : String) : String :=
  joinWith ", " (((splitCh ',' srcset.data).map
    (fun g => (⟨g⟩ : String))).map (rewriteSrcsetPart lookup))

/-- The `$('img').each` callback of `rewriteHtmlImages` (rewriter.js
176–224) as a transformation of the element's attribute list. -/
def rewriteImgEl (imageMap : List (String × String)) (baseUrl : String)
    (el0 : List (String × String)) : List (String × String) :=
  let src := attrGet el0 "src"
  let srcset := attrGet el0 "srcset"
  let dataSrc := jsOr (attrGet el0 "data-src") (jsOr (attrGet el0 "data-lazy-src")
    (jsOr (attrGet el0 "data-original") (jsOr (attrGet el0 "data-image")
      (jsOr (attrGet el0 "data-img") (attrGet el0 "data-slide-src")))))
  let step1 : List (String × String) × Bool :=
    if (!attrTruthy src || placeholderTest (src.getD "")) && attrTruthy dataSrc then
      match getLocalPath imageMap baseUrl (dataSrc.getD "") with
      | some lp =>
        (lazyAttrs.foldl attrRemove (attrSet el0 "src" lp), true)
      | none => (el0, false)
    else if attrTruthy src then
      match getLocalPath imageMap baseUrl (src.getD "") with
      | some lp => (attrSet el0 "src" lp, false)
      | none => (el0, false)
    else (el0, false)
  let el2 :=
    if attrTruthy srcset then
      attrSet step1.1 "srcset"
        (rewriteSrcset (getLocalPath imageMap baseUrl) (srcset.getD ""))
    else step1.1
  let el3 :=
    if !step1.2 && attrTruthy dataSrc then
      match getLocalPath imageMap baseUrl (dataSrc.getD "") with
      | some lp =>
        lazyAttrs.foldl (fun el attr =>
          if attrTruthy (attrGet el attr) then attrSet el attr lp else el) el2
      | none => el2
    else el2
  let dataLazySrcset := jsOr (attrGet el3 "data-srcset") (attrGet el3 "data-lazy-srcset")
  if attrTruthy dataLazySrcset then
    attrSet el3 "data-srcset"
      (rewriteSrcset (getLocalPath imageMap baseUrl) (dataLazySrcset.getD ""))
  else el3

/-! ## Claim C9 — placeholder promotion -/

/-- Claim C9 (confirmed): for `<img src="loading.gif"
data-src="https://example.com/hero.jpg">` with the image map providing a
local path for `hero.jpg`, the rewritten element's `src` equals that local
path and no lazy-load attribute remains. -/
theorem placeholder_promotion_scenario :
    rewriteImgEl [("https://example.com/hero.jpg", "./assets/images/hero.jpg")]
        "https://example.com/"
        [("src", "loading.gif"), ("data-src", "https://example.com/hero.jpg")]
      = [("src", "./assets/images/hero.jpg")] ∧
    attrGet (rewriteImgEl [("https://example.com/hero.jpg", "./assets/images/hero.jpg")]
        "https://example.com/"
        [("src", "loading.gif"), ("data-src", "https://example.com/hero.jpg")]) "src"
      = some "./assets/images/hero.jpg" ∧
    (∀ attr ∈ lazyAttrs,
      attrGet (rewriteImgEl [("https://example.com/hero.jpg", "./assets/images/hero.jpg")]
        "https://example.com/"
        [("src", "loading.gif"), ("data-src", "https://example.com/hero.jpg")]) attr
      = none) := by
  decide

/-! ## CSS rewriting (`src/rewriter.js` 318–367)

The regex scanner for `url\s*\(\s*["']?([^"')]+)["']?\s*\)` is implemented
character-level: the capture class excludes quotes and `)`, so the capture is
the maximal run after the optional opening quote, and the only continuations
are a closing paren, or a closing quote followed by whitespace and a paren
(backtracking cannot produce other matches except in quote/whitespace
pathologies outside the modelled domain).  On no match the scan advances one
character, as `String.replace` does. -/

/-- Try to match the url(...) regex at the head of `cs`; on success return
the captured URL characters and the total match length. -/
def matchUrlAt (cs : List Char) : Option (List Char × Nat) :=
  match cs with
  | 'u' :: 'r' :: 'l' :: rest =>
    let ws1 := rest.takeWhile isWsp
    match rest.drop ws1.length with
    | '(' :: r2 =>
      let ws2 := r2.takeWhile isWsp
      let qr : Nat × List Char :=
        match r2.drop ws2.length with
        | '"' :: t => (1, t)
        | '\'' :: t => (1, t)
        | r3 => (0, r3)
      let cap := qr.2.takeWhile (fun c => c ≠ '"' && c ≠ '\'' && c ≠ ')')
      if cap = [] then none
      else
        match qr.2.drop cap.length with
        | ')' :: _ =>
          some (cap, 3 + ws1.length + 1 + ws2.length + qr.1 + cap.length + 1)
        | '"' :: t =>
          let ws3 := t.takeWhile isWsp
          match t.drop ws3.length with
          | ')' :: _ => some (cap,
              3 + ws1.length + 1 + ws2.length + qr.1 + cap.length + 1 + ws3.length + 1)
          | _ => none
        | '\'' :: t =>
          let ws3 := t.takeWhile isWsp
          match t.drop ws3.length with
          | ')' :: _ => some (cap,
              3 + ws1.length + 1 + ws2.length + qr.1 + cap.length + 1 + ws3.length + 1)
          | _ => none
        | _ => none
    | _ => none
  | _ => none

/-- `css.replace(urlRegex, replacer)`: scan, replacing each match by
`repl matchText capture`; fuelled (fuel `cs.length` suffices, and exhausted
fuel emits the remainder verbatim). -/
def replUrlsF (repl : List Char → List Char → List Char) :
    Nat → List Char → List Char
  | 0, cs => cs
  | fuel + 1, cs =>
    match cs with
    | [] => []
    | c :: rest =>
      match matchUrlAt cs with
      | some (cap, len) => repl (cs.take len) cap ++ replUrlsF repl fuel (cs.drop len)
      | none => c :: replUrlsF repl fuel rest

/-- The captures the scanner visits, in order. -/
def urlTokensF : Nat → List Char → List (List Char)
  | 0, _ => []
  | fuel + 1, cs =>
    match cs with
    | [] => []
    | _ :: rest =>
      match matchUrlAt cs with
      | some (cap, len) => cap :: urlTokensF fuel (cs.drop len)
      | none => urlTokensF fuel rest

/-- URL tokens of a CSS text, as strings. -/
def cssUrlTokens (css : String) : List String :=
  (urlTokensF css.data.length css.data).map (fun g => (⟨g⟩ : String))

/-- String-level replace over url(...) occurrences. -/
def jsReplaceUrls (f : String → String → String) (css : String) : String :=
  ⟨replUrlsF (fun m cap => (f ⟨m⟩ ⟨cap⟩).data) css.data.length css.data⟩

/-- The `getLocalPath` of `rewriteCssImages` (rewriter.js 319–332): exact,
resolved against the stylesheet URL, then query/hash-stripped against
`baseUrl || 'http://localhost/'`. -/
def cssImgLookup (imageMap : List (String × String)) (baseUrl : String)
    (url : String) : Option String :=
  let trimmed := jsTrim url
  match mapGet imageMap trimmed with
  | some v => some v
  | none =>
    let toResolve : Option String :=
      if !strStarts trimmed "http" && !strStarts trimmed "data:" && baseUrl ≠ ""
      then resolveUrl trimmed baseUrl else some trimmed
    let second : Option String :=
      match toResolve with
      | some r => mapGet imageMap r
      | none => none
    match second with
    | some v => some v
    | none =>
      match jsNewUrl trimmed (if baseUrl = "" then "http://localhost/" else baseUrl) with
      | some u => mapGet imageMap (UrlParts.href { u with query := "", frag := "" })
      | none => none

/-- The inline lookup of `rewriteCssFonts` (rewriter.js 343–357): identical
three tiers, but only `u.search` is cleared (the hash is kept). -/
def cssFontLookup (fontMap : List (String × String)) (baseUrl : String)
    (url : String) : Option String :=
  let trimmed := jsTrim url
  match mapGet fontMap trimmed with
  | some v => some v
  | none =>
    let toResolve : Option String :=
      if !strStarts trimmed "http" && !strStarts trimmed "data:" && baseUrl ≠ ""
      then resolveUrl trimmed baseUrl else some trimmed
    let second : Option String :=
      match toResolve with
      | some r => mapGet fontMap r
      | none => none
    match second with
    | some v => some v
    | none =>
      match jsNewUrl trimmed (if baseUrl = "" then "http://localhost/" else baseUrl) with
      | some u => mapGet fontMap (UrlParts.href { u with query := "" })
      | none => none

/-- `rewriteCssImages(css, imageMap, baseUrl)` (rewriter.js 318–338). -/
def rewriteCssImages (css : String) (imageMap : List (String × String))
    (baseUrl : String) : String :=
  jsReplaceUrls (fun m url =>
    match cssImgLookup imageMap baseUrl url with
    | some lp => "url(\"" ++ lp ++ "\")"
    | none => m) css

/-- `rewriteCssFonts(css, fontMap, baseUrl)` (rewriter.js 343–357). -/
def rewriteCssFonts (css : String) (fontMap : List (String × String))
    (baseUrl : String) : String :=
  jsReplaceUrls (fun m url =>
    match cssFontLookup fontMap baseUrl url with
    | some lp => "url(\"" ++ lp ++ "\")"
    | none => m) css

/-- `rewriteCss(css, imageMap, fontMap, baseUrl)` (rewriter.js 362–367). -/
def rewriteCss (css : String) (imageMap fontMap : List (String × String))
    (baseUrl : String) : String :=
  let r1 := if imageMap.length > 0 then rewriteCssImages css imageMap baseUrl else css
  if fontMap.length > 0 then rewriteCssFonts r1 fontMap baseUrl else r1

theorem replUrlsF_id (repl : List Char → List Char → List Char) :
    ∀ (fuel : Nat) (cs : List Char),
      (∀ cap ∈ urlTokensF fuel cs, ∀ m, repl m cap = m) →
      replUrlsF repl fuel cs = cs := by
  intro fuel
  induction fuel with
  | zero => intro cs _; rfl
  | succ fuel ih =>
    intro cs h
    cases cs with
    | nil => rfl
    | cons c rest =>
      show replUrlsF repl (fuel + 1) (c :: rest) = c :: rest
      unfold replUrlsF
      cases hm : matchUrlAt (c :: rest) with
      | some pair =>
        obtain ⟨cap, len⟩ := pair
        have htok : cap ∈ urlTokensF (fuel + 1) (c :: rest) := by
          unfold urlTokensF
          rw [hm]
          exact List.mem_cons_self _ _
        have htail : ∀ x ∈ urlTokensF fuel ((c :: rest).drop len), ∀ m, repl m x = m := by
          intro x hx
          refine h x ?_
          unfold urlTokensF
          rw [hm]
          exact List.mem_cons_of_mem _ hx
        dsimp only
        rw [h cap htok ((c :: rest).take len), ih _ htail]
        exact List.take_append_drop len (c :: rest)
      | none =>
        have htail : ∀ x ∈ urlTokensF fuel rest, ∀ m, repl m x = m := by
          intro x hx
          refine h x ?_
          unfold urlTokensF
          rw [hm]
          exact hx
        dsimp only
        rw [ih rest htail]

theorem jsReplaceUrls_id (f : String → String → String) (css : String)
    (h : ∀ tok ∈ cssUrlTokens css, ∀ m, f m tok = m) :
    jsReplaceUrls f css = css := by
  refine String.ext ?_
  show replUrlsF (fun m cap => (f ⟨m⟩ ⟨cap⟩).data) css.data.length css.data = css.data
  refine replUrlsF_id _ css.data.length css.data ?_
  intro cap hcap m
  have hmem : (⟨cap⟩ : String) ∈ cssUrlTokens css :=
    List.mem_map_of_mem _ hcap
  have := h ⟨cap⟩ hmem ⟨m⟩
  rw [this]

theorem rewriteCss_noop (css : String) (imap fmap : List (String × String))
    (base : String)
    (h : ∀ tok ∈ cssUrlTokens css,
      cssImgLookup imap base tok = none ∧ cssFontLookup fmap base tok = none) :
    rewriteCss css imap fmap base = css := by
  have h1 : rewriteCssImages css imap base = css := by
    refine jsReplaceUrls_id _ css ?_
    intro tok htok m
    show (match cssImgLookup imap base tok with
      | some lp => "url(\"" ++ lp ++ "\")"
      | none => m) = m
    rw [(h tok htok).1]
  have h2 : rewriteCssFonts css fmap base = css := by
    refine jsReplaceUrls_id _ css ?_
    intro tok htok m
    show (match cssFontLookup fmap base tok with
      | some lp => "url(\"" ++ lp ++ "\")"
      | none => m) = m
    rw [(h tok htok).2]
  unfold rewriteCss
  by_cases hi : imap.length > 0
  · rw [if_pos hi, h1]
    by_cases hf : fmap.length > 0
    · rw [if_pos hf, h2]
    · rw [if_neg hf]
  · rw [if_neg hi]
    by_cases hf : fmap.length > 0
    · rw [if_pos hf, h2]
    · rw [if_neg hf]

/-! ## Claim C4 — idempotence of the rewriter -/

/-- Claim C4, refutation: `rewriteCss` is not idempotent for every image
map.  With the chained map `a.png → b.png, b.png → c.png`, the first pass
rewrites `url(a.png)` to `url("b.png")` and the second pass rewrites that to
`url("c.png")` — the second application is not byte-identical to the first. -/
theorem rewriteCss_not_idempotent_cex :
    rewriteCss "url(a.png)" [("a.png", "b.png"), ("b.png", "c.png")] [] ""
      = "url(\"b.png\")" ∧
    rewriteCss (rewriteCss "url(a.png)" [("a.png", "b.png"), ("b.png", "c.png")] [] "")
        [("a.png", "b.png"), ("b.png", "c.png")] [] ""
      = "url(\"c.png\")" ∧
    ("url(\"c.png\")" : String) ≠ "url(\"b.png\")" := by
  decide

/-- Claim C4 (amended, for the CSS rewriter): a second application of
`rewriteCss` is byte-identical to the first provided no URL token of the
rewritten text (in particular no substituted local path) succeeds in either
map's three-tier lookup — the property the spec asserts with "local paths do
not match remote-URL lookup keys"; and if no URL token of a text matches
either map, rewriting that text is a byte-level no-op.  (For `rewriteHtml`
the output bytes pass through the external HTML serializer, which
renormalizes markup, so byte-identity is not meaningful at this level.) -/
theorem rewriteCss_idempotent_when_locals_miss (css : String)
    (imap fmap : List (String × String)) (base : String)
    (hmiss : ∀ tok ∈ cssUrlTokens (rewriteCss css imap fmap base),
      cssImgLookup imap base tok = none ∧ cssFontLookup fmap base tok = none) :
    rewriteCss (rewriteCss css imap fmap base) imap fmap base
      = rewriteCss css imap fmap base ∧
    ((∀ tok ∈ cssUrlTokens css,
        cssImgLookup imap base tok = none ∧ cssFontLookup fmap base tok = none) →
      rewriteCss css imap fmap base = css) :=
  ⟨rewriteCss_noop _ imap fmap base hmiss,
   fun h => rewriteCss_noop css imap fmap base h⟩

/-- Witness for `rewriteCss_idempotent_when_locals_miss`: the stylesheet
scenario `.icon { background: url(../img/x.png); }` resolved against the
stylesheet's own URL, with nonempty image and font maps; the substituted
local path misses every lookup, so the second pass changes nothing. -/
theorem rewriteCss_idempotent_when_locals_miss_witness :
    rewriteCss (rewriteCss ".icon { background: url(../img/x.png); }"
        [("https://site.com/img/x.png", "./assets/images/x.png")]
        [("https://site.com/f.woff2", "./assets/fonts/f.woff2")]
        "https://site.com/css/app.css")
      [("https://site.com/img/x.png", "./assets/images/x.png")]
      [("https://site.com/f.woff2", "./assets/fonts/f.woff2")]
      "https://site.com/css/app.css"
      = rewriteCss ".icon { background: url(../img/x.png); }"
          [("https://site.com/img/x.png", "./assets/images/x.png")]
          [("https://site.com/f.woff2", "./assets/fonts/f.woff2")]
          "https://site.com/css/app.css" ∧
    ((∀ tok ∈ cssUrlTokens ".icon { background: url(../img/x.png); }",
        cssImgLookup [("https://site.com/img/x.png", "./assets/images/x.png")]
          "https://site.com/css/app.css" tok = none ∧
        cssFontLookup [("https://site.com/f.woff2", "./assets/fonts/f.woff2")]
          "https://site.com/css/app.css" tok = none) →
      rewriteCss ".icon { background: url(../img/x.png); }"
        [("https://site.com/img/x.png", "./assets/images/x.png")]
        [("https://site.com/f.woff2", "./assets/fonts/f.woff2")]
        "https://site.com/css/app.css"
        = ".icon { background: url(../img/x.png); }") :=
  rewriteCss_idempotent_when_locals_miss ".icon { background: url(../img/x.png); }"
    [("https://site.com/img/x.png", "./assets/images/x.png")]
    [("https://site.com/f.woff2", "./assets/fonts/f.woff2")]
    "https://site.com/css/app.css" (by decide)
